import Mathlib

/-!
Shallow embedding of the ruffle h263-rs repository (h263, deblock and yuv
crates), with theorems settling the frozen specification claims.

Machine integers are modelled as `Int` (or `Nat` for unsigned values),
with Rust's truncating division written `Int.tdiv`, arithmetic shift
right written `Int.fdiv` by a power of two, `x & 0x0F` written
`Int.emod x 16`, and `as u8` casts written `Int.emod _ 256`.  All the
i16 intermediate quantities that appear in the embedded kernels are
small enough that no two's-complement wraparound can occur, so plain
`Int` arithmetic agrees with the Rust i16 arithmetic except at the
explicitly modelled cast sites.
-/

/-- Rust `i16::clamp(lo, hi)` / `Ord::clamp`: `if x < lo { lo } else if x > hi { hi } else { x }`. -/
def rustClamp (x lo hi : Int) : Int :=
  if x < lo then lo else if hi < x then hi else x

/-- Rust `as u8` on an i16 value: two's-complement truncation to 8 bits. -/
def toU8 (x : Int) : Int := Int.emod x 256

/-! ## deblock crate (src/deblock/src/deblock.rs) -/

/-- Figure J.2/H.263: parameter d1 as a function of parameter d
(`scalar_impl::up_down_ramp` in deblock.rs):
`x.signum() * (x.abs() - (2 * (x.abs() - strength)).max(0)).max(0)`. -/
def up_down_ramp (x strength : Int) : Int :=
  Int.sign x * max (|x| - max (2 * (|x| - strength)) 0) 0

/-- Clips x to the range plus or minus abs(lim) (`scalar_impl::clipd1` in deblock.rs). -/
def clipd1 (x lim : Int) : Int :=
  rustClamp x (-|lim|) |lim|

/-- The intermediate `d` of `scalar_impl::process`: `(a16 - 4 * b16 + 4 * c16 - d16) / 8`
with Rust truncating i16 division. -/
def deblockD (A B C D : Int) : Int :=
  Int.tdiv (A - 4 * B + 4 * C - D) 8

/-- The intermediate `d1` of `scalar_impl::process`. -/
def deblockD1 (A B C D strength : Int) : Int :=
  up_down_ramp (deblockD A B C D) strength

/-- The intermediate `d2` of `scalar_impl::process`:
`clipd1((a16 - d16) / 4, d1 / 2)` with Rust truncating i16 divisions. -/
def deblockD2 (A B C D strength : Int) : Int :=
  clipd1 (Int.tdiv (A - D) 4) (Int.tdiv (deblockD1 A B C D strength) 2)

/-- `scalar_impl::process` from deblock.rs: the four output bytes
`((a16 - d2) as u8, (b16 + d1).clamp(0, 255) as u8, (c16 - d1).clamp(0, 255) as u8, (d16 + d2) as u8)`. -/
def process (A B C D strength : Int) : Int × Int × Int × Int :=
  let d1 := deblockD1 A B C D strength
  let d2 := deblockD2 A B C D strength
  (toU8 (A - d2),
   toU8 (rustClamp (B + d1) 0 255),
   toU8 (rustClamp (C - d1) 0 255),
   toU8 (D + d2))

/-- `simd_impl::signum_simd` from deblock.rs: `x.cmp_lt(ZERO) - x.cmp_gt(ZERO)`
per lane, where a true comparison is all one bits, numerically `-1`. -/
def signum_simd (x : Int) : Int :=
  (if x < 0 then -1 else 0) - (if 0 < x then -1 else 0)

/-- `simd_impl::clamp_simd` from deblock.rs: `x.max(min).min(max)` per lane. -/
def clamp_simd (x lo hi : Int) : Int :=
  min (max x lo) hi

/-- `simd_impl::up_down_ramp_simd` from deblock.rs, per lane. -/
def up_down_ramp_simd (x strength : Int) : Int :=
  signum_simd x * max (|x| - max (2 * (|x| - strength)) 0) 0

/-- `simd_impl::clipd1_simd` from deblock.rs, per lane. -/
def clipd1_simd (x lim : Int) : Int :=
  clamp_simd x (-|lim|) |lim|

/-- One lane of `simd_impl::process_simd` from deblock.rs.  The `wide`
crate's `i16x8::shr` is a lanewise arithmetic shift right, i.e. flooring
division by a power of two, modelled by `Int.fdiv`. -/
def process_simd_lane (A B C D strength : Int) : Int × Int × Int × Int :=
  let d := Int.fdiv (A - 4 * B + 4 * C - D) 8
  let d1 := up_down_ramp_simd d strength
  let d2 := clipd1_simd (Int.fdiv (A - D) 4) (Int.fdiv d1 2)
  (toU8 (A - d2),
   toU8 (clamp_simd (B + d1) 0 255),
   toU8 (clamp_simd (C - d1) 0 255),
   toU8 (D + d2))

/-- `simd_impl::process_simd` from deblock.rs: all eight lanes, each lane
computed independently by the lanewise `i16x8` operations. -/
def process_simd (A B C D : Fin 8 → Int) (strength : Int) :
    (Fin 8 → Int) × (Fin 8 → Int) × (Fin 8 → Int) × (Fin 8 → Int) :=
  (fun i => (process_simd_lane (A i) (B i) (C i) (D i) strength).1,
   fun i => (process_simd_lane (A i) (B i) (C i) (D i) strength).2.1,
   fun i => (process_simd_lane (A i) (B i) (C i) (D i) strength).2.2.1,
   fun i => (process_simd_lane (A i) (B i) (C i) (D i) strength).2.2.2)

example : process 0 1 0 0 1 = (0, 1, 0, 0) := by decide
example : process_simd_lane 0 1 0 0 1 = (0, 0, 1, 0) := by decide

/-- Truncating division by a positive constant shrinks a nonnegative value. -/
theorem tdiv_bounds_of_nonneg (x q : Int) (hx : 0 ≤ x) (hq : 0 < q) :
    0 ≤ x.tdiv q ∧ x.tdiv q ≤ x := by
  constructor
  · exact Int.tdiv_nonneg hx (le_of_lt hq)
  · rw [Int.tdiv_eq_ediv hx (le_of_lt hq)]
    exact Int.ediv_le_self _ hx

/-- Truncating division by a positive constant shrinks the magnitude of a
nonpositive value. -/
theorem tdiv_bounds_of_nonpos (x q : Int) (hx : x ≤ 0) (hq : 0 < q) :
    x ≤ x.tdiv q ∧ x.tdiv q ≤ 0 := by
  have h := tdiv_bounds_of_nonneg (-x) q (by omega) hq
  have hneg : (-x).tdiv q = -(x.tdiv q) := Int.neg_tdiv x q
  omega

/-- C10: for all byte inputs and strengths 1..=12, the unclamped corrections
of the scalar deblocking kernel stay inside the byte range: `a16 - d2` and
`d16 + d2` lie in `[0, 255]`, so the `as u8` casts in `scalar_impl::process`
never wrap, and the first and fourth output bytes equal the uncast values. -/
theorem c10_process_unclamped_outputs_safe
    (A B C D s : Int)
    (hA0 : 0 ≤ A) (hA1 : A ≤ 255) (hB0 : 0 ≤ B) (hB1 : B ≤ 255)
    (hC0 : 0 ≤ C) (hC1 : C ≤ 255) (hD0 : 0 ≤ D) (hD1 : D ≤ 255)
    (hs0 : 1 ≤ s) (hs1 : s ≤ 12) :
    0 ≤ A - deblockD2 A B C D s ∧ A - deblockD2 A B C D s ≤ 255 ∧
    0 ≤ D + deblockD2 A B C D s ∧ D + deblockD2 A B C D s ≤ 255 ∧
    (process A B C D s).1 = A - deblockD2 A B C D s ∧
    (process A B C D s).2.2.2 = D + deblockD2 A B C D s := by
  have hl : 0 ≤ |Int.tdiv (deblockD1 A B C D s) 2| := abs_nonneg _
  have hd2 : min (Int.tdiv (A - D) 4) 0 ≤ deblockD2 A B C D s ∧
      deblockD2 A B C D s ≤ max (Int.tdiv (A - D) 4) 0 := by
    unfold deblockD2 clipd1 rustClamp
    split_ifs <;> omega
  have ht : A - D ≤ Int.tdiv (A - D) 4 ∧ Int.tdiv (A - D) 4 ≤ A - D ∨
      (0 ≤ A - D ∧ 0 ≤ Int.tdiv (A - D) 4 ∧ Int.tdiv (A - D) 4 ≤ A - D) ∨
      (A - D ≤ 0 ∧ A - D ≤ Int.tdiv (A - D) 4 ∧ Int.tdiv (A - D) 4 ≤ 0) := by
    rcases le_or_lt 0 (A - D) with h | h
    · right; left
      exact ⟨h, (tdiv_bounds_of_nonneg _ 4 h (by norm_num)).1,
        (tdiv_bounds_of_nonneg _ 4 h (by norm_num)).2⟩
    · right; right
      exact ⟨le_of_lt h, (tdiv_bounds_of_nonpos _ 4 (le_of_lt h) (by norm_num)).1,
        (tdiv_bounds_of_nonpos _ 4 (le_of_lt h) (by norm_num)).2⟩
  have hbound : 0 ≤ A - deblockD2 A B C D s ∧ A - deblockD2 A B C D s ≤ 255 ∧
      0 ≤ D + deblockD2 A B C D s ∧ D + deblockD2 A B C D s ≤ 255 := by omega
  refine ⟨hbound.1, hbound.2.1, hbound.2.2.1, hbound.2.2.2, ?_, ?_⟩
  · show toU8 (A - deblockD2 A B C D s) = A - deblockD2 A B C D s
    exact Int.emod_eq_of_lt hbound.1 (by omega)
  · show toU8 (D + deblockD2 A B C D s) = D + deblockD2 A B C D s
    exact Int.emod_eq_of_lt hbound.2.2.1 (by omega)

/-- Witness for C10 at the concrete input A=10, B=0, C=250, D=200, strength 5. -/
theorem c10_process_unclamped_outputs_safe_witness :
    0 ≤ (10 : Int) - deblockD2 10 0 250 200 5 ∧
    (10 : Int) - deblockD2 10 0 250 200 5 ≤ 255 ∧
    0 ≤ (200 : Int) + deblockD2 10 0 250 200 5 ∧
    (200 : Int) + deblockD2 10 0 250 200 5 ≤ 255 ∧
    (process 10 0 250 200 5).1 = 10 - deblockD2 10 0 250 200 5 ∧
    (process 10 0 250 200 5).2.2.2 = 200 + deblockD2 10 0 250 200 5 :=
  c10_process_unclamped_outputs_safe 10 0 250 200 5
    (by norm_num) (by norm_num) (by norm_num) (by norm_num) (by norm_num)
    (by norm_num) (by norm_num) (by norm_num) (by norm_num) (by norm_num)

/-- C4: the scalar and SIMD deblocking kernels are not bit-exact.  On the
constant lanes A=0, B=1, C=0, D=0 with strength 1, the scalar `process`
leaves the quartet unchanged at (0, 1, 0, 0), while `process_simd` (whose
`shr` rounds the intermediate quantities toward negative infinity rather
than toward zero) produces (0, 0, 1, 0) in every lane. -/
theorem c4_simd_scalar_not_bit_exact :
    process 0 1 0 0 1 = (0, 1, 0, 0) ∧
    (process_simd (fun _ => 0) (fun _ => 1) (fun _ => 0) (fun _ => 0) 1).1 0 = 0 ∧
    (process_simd (fun _ => 0) (fun _ => 1) (fun _ => 0) (fun _ => 0) 1).2.1 0 = 0 ∧
    (process_simd (fun _ => 0) (fun _ => 1) (fun _ => 0) (fun _ => 0) 1).2.2.1 0 = 1 ∧
    (process_simd (fun _ => 0) (fun _ => 1) (fun _ => 0) (fun _ => 0) 1).2.2.2 0 = 0 ∧
    process_simd_lane 0 1 0 0 1 ≠ process 0 1 0 0 1 := by
  refine ⟨by decide, by decide, by decide, by decide, by decide, by decide⟩

/-! ## HalfPel (src/h263/src/types.rs) -/

/-- `HalfPel::average_sum_of_mvs` from types.rs, on the underlying i16 value:
`whole = (self.0 >> 4) << 1` (arithmetic shift right, i.e. flooring division
by 16, then doubling), `frac = self.0 & 0x0F` (the value modulo 16), then the
table `{0,1,2 -> whole, 14,15 -> whole + 2, otherwise -> whole + 1}`. -/
def average_sum_of_mvs (s : Int) : Int :=
  let whole := Int.fdiv s 16 * 2
  let frac := Int.emod s 16
  if frac = 0 ∨ frac = 1 ∨ frac = 2 then whole
  else if frac = 14 ∨ frac = 15 then whole + 2
  else whole + 1

/-- Modelled from the spec: the chroma motion-vector rounding described in
the specification, namely the table `{frac 0,1,2 -> +0; frac 14,15 -> +2;
otherwise -> +1}` applied to the whole part `(sum >> 4) << 1` of the sum of
the four luma motion vectors. -/
def chroma_mv_round_spec (sum : Int) : Int :=
  let wholePart := Int.fdiv sum 16 * 2
  let fracPart := Int.emod sum 16
  wholePart + (if fracPart ≤ 2 then 0 else if 14 ≤ fracPart then 2 else 1)

/-- C5: for every half-pel component v (any i16 value whose quadruple still
fits in i16), `average_sum_of_mvs` applied to the sum `4 * v` returns exactly
the value prescribed by the specification's table-based rounding of that sum. -/
theorem c5_average_sum_of_mvs_spec (v : Int)
    (h1 : -32768 ≤ 4 * v) (h2 : 4 * v ≤ 32767) :
    average_sum_of_mvs (4 * v) = chroma_mv_round_spec (4 * v) := by
  have hmod : 0 ≤ Int.emod (4 * v) 16 ∧ Int.emod (4 * v) 16 < 16 := by
    constructor
    · exact Int.emod_nonneg _ (by norm_num)
    · exact Int.emod_lt_of_pos _ (by norm_num)
  have hdvd : (4 : Int) ∣ Int.emod (4 * v) 16 := by
    show (4 : Int) ∣ (4 * v) % 16
    rw [Int.emod_def]
    exact dvd_sub ⟨v, rfl⟩ ⟨4 * (4 * v / 16), by ring⟩
  obtain ⟨k, hk⟩ := hdvd
  have hcase : Int.emod (4 * v) 16 = 0 ∨ Int.emod (4 * v) 16 = 4 ∨
      Int.emod (4 * v) 16 = 8 ∨ Int.emod (4 * v) 16 = 12 := by omega
  unfold average_sum_of_mvs chroma_mv_round_spec
  rcases hcase with h | h | h | h <;> rw [h] <;> norm_num

/-- Witness for C5 at the concrete half-pel value v = -13 (sum -52). -/
theorem c5_average_sum_of_mvs_spec_witness :
    average_sum_of_mvs (4 * (-13)) = chroma_mv_round_spec (4 * (-13)) :=
  c5_average_sum_of_mvs_spec (-13) (by norm_num) (by norm_num)

/-! ## IntraDc (src/h263/src/types.rs) -/

/-- `IntraDc::from_u8` from types.rs: `None` for 0 and 128, otherwise the
byte is stored as the fixed-length code. -/
def intra_dc_from_u8 (value : Nat) : Option Nat :=
  if value = 0 ∨ value = 128 then none else some value

/-- `IntraDc::into_level` from types.rs: `if self.0 == 0xFF { 1024 } else
{ (self.0 as u16 as i16) << 3 }` (the shift cannot overflow since the byte
is at most 254 in that branch). -/
def intra_dc_into_level (v : Nat) : Int :=
  if v = 255 then 1024 else (v : Int) * 8

/-- C8: every byte other than 0 and 128 is a valid `IntraDc` code whose
reconstruction level is a multiple of 8 in [8, 2032]; the byte 255 decodes
to level 1024; the bytes 0 and 128 are rejected. -/
theorem c8_intra_dc_levels (n : Nat) (hn : n < 256) :
    (n ≠ 0 → n ≠ 128 →
      intra_dc_from_u8 n = some n ∧
      (8 : Int) ∣ intra_dc_into_level n ∧
      8 ≤ intra_dc_into_level n ∧ intra_dc_into_level n ≤ 2032) ∧
    intra_dc_from_u8 0 = none ∧
    intra_dc_from_u8 128 = none ∧
    intra_dc_into_level 255 = 1024 := by
  refine ⟨fun h0 h128 => ?_, by decide, by decide, by decide⟩
  refine ⟨by simp [intra_dc_from_u8, h0, h128], ?_, ?_, ?_⟩
  · unfold intra_dc_into_level
    split_ifs with h
    · norm_num
    · exact Dvd.intro_left _ rfl
  · unfold intra_dc_into_level
    split_ifs with h
    · norm_num
    · have : 1 ≤ n := by omega
      have : (1 : Int) ≤ (n : Int) := by exact_mod_cast this
      omega
  · unfold intra_dc_into_level
    split_ifs with h
    · norm_num
    · have : n ≤ 254 := by omega
      have : (n : Int) ≤ 254 := by exact_mod_cast this
      omega

/-- Witness for C8 at the concrete byte 254. -/
theorem c8_intra_dc_levels_witness :
    (254 ≠ 0 → 254 ≠ 128 →
      intra_dc_from_u8 254 = some 254 ∧
      (8 : Int) ∣ intra_dc_into_level 254 ∧
      8 ≤ intra_dc_into_level 254 ∧ intra_dc_into_level 254 ≤ 2032) ∧
    intra_dc_from_u8 0 = none ∧
    intra_dc_from_u8 128 = none ∧
    intra_dc_into_level 255 = 1024 :=
  c8_intra_dc_levels 254 (by norm_num)

/-! ## Inverse RLE (src/h263/src/decoder/cpu/rle.rs) -/

/-- `TCoefficient` from types.rs: a run-length encoded IDCT coefficient. -/
structure TCoefficient where
  is_short : Bool
  run : Nat
  level : Int
deriving DecidableEq

/-- `Block` from types.rs: the DC coefficient, if present, stored as its
`IntraDc` fixed-length code byte, plus the `TCOEF` events. -/
structure EncodedBlock where
  intradc : Option Nat
  tcoef : List TCoefficient

/-- `DEZIGZAG_MAPPING` from rle.rs, as (x, y) coordinates. -/
def DEZIGZAG_MAPPING : List (Nat × Nat) :=
  [(0, 0), (1, 0), (0, 1), (0, 2), (1, 1), (2, 0), (3, 0), (2, 1),
   (1, 2), (0, 3), (0, 4), (1, 3), (2, 2), (3, 1), (4, 0), (5, 0),
   (4, 1), (3, 2), (2, 3), (1, 4), (0, 5), (0, 6), (1, 5), (2, 4),
   (3, 3), (4, 2), (5, 1), (6, 0), (7, 0), (6, 1), (5, 2), (4, 3),
   (3, 4), (2, 5), (1, 6), (0, 7), (1, 7), (2, 6), (3, 5), (4, 4),
   (5, 3), (6, 2), (7, 1), (7, 2), (6, 3), (5, 4), (4, 5), (3, 6),
   (2, 7), (3, 7), (4, 6), (5, 5), (6, 4), (7, 3), (7, 4), (6, 5),
   (5, 6), (4, 7), (5, 7), (6, 6), (7, 5), (7, 6), (6, 7), (7, 7)]

/-- The x coordinate of `DEZIGZAG_MAPPING[z]` as a `Fin 8`. -/
def zigX (z : Nat) : Fin 8 :=
  ⟨(DEZIGZAG_MAPPING.getD z (0, 0)).1 % 8, Nat.mod_lt _ (by norm_num)⟩

/-- The y coordinate of `DEZIGZAG_MAPPING[z]` as a `Fin 8`. -/
def zigY (z : Nat) : Fin 8 :=
  ⟨(DEZIGZAG_MAPPING.getD z (0, 0)).2 % 8, Nat.mod_lt _ (by norm_num)⟩

/-- An 8x8 grid of coefficient values, modelling `block_data: [[f32; 8]; 8]`
(all values stored are small integers, exactly representable in f32),
indexed as `grid y x` like `block_data[zig_y][zig_x]`. -/
def gridSet (g : Fin 8 → Fin 8 → Int) (y x : Fin 8) (v : Int) : Fin 8 → Fin 8 → Int :=
  fun y' x' => if y' = y ∧ x' = x then v else g y' x'

/-- The all-zeroes 8x8 grid (`let mut block_data = [[0.0f32; 8]; 8]`). -/
def zeroGrid : Fin 8 → Fin 8 → Int := fun _ _ => 0

/-- `DecodedDctBlock` from types.rs as used by rle.rs and idct.rs
(its declaration is outside the provided sources; the spec describes it as
`Zero | Dc(f32) | Horiz([f32;8]) | Vert([f32;8]) | Full([[f32;8];8])`,
and rle.rs constructs exactly these variants). -/
inductive DecodedDctBlock where
  | Zero : DecodedDctBlock
  | Dc (dc : Int) : DecodedDctBlock
  | Horiz (row : Fin 8 → Int) : DecodedDctBlock
  | Vert (col : Fin 8 → Int) : DecodedDctBlock
  | Full (g : Fin 8 → Fin 8 → Int) : DecodedDctBlock

/-- The coefficient grid denoted by a `DecodedDctBlock`: `Horiz` stores row 0,
`Vert` stores column 0, `Dc` stores the single (0,0) entry, all other
positions being zero (this is how idct.rs consumes the variants). -/
def dctGet (b : DecodedDctBlock) (y x : Fin 8) : Int :=
  match b with
  | .Zero => 0
  | .Dc dc => if y = 0 ∧ x = 0 then dc else 0
  | .Horiz row => if y = 0 then row x else 0
  | .Vert col => if x = 0 then col y else 0
  | .Full g => g y x

/-- The dequantised value written by rle.rs for one tcoef:
`(tcoef.level.signum() * (quant * (2 * level.abs() + 1) + parity)).clamp(-2048, 2047)`
with `parity = 0` for odd quant and `-1` for even quant. -/
def dequant_value (q : Nat) (level : Int) : Int :=
  let dequantized_level := (q : Int) * (2 * |level| + 1)
  let parity : Int := if q % 2 = 1 then 0 else -1
  rustClamp (Int.sign level * (dequantized_level + parity)) (-2048) 2047

/-- The `for tcoef in encoded_block.tcoef.iter()` loop of `inverse_rle`,
carrying the zigzag index, the grid and the `is_horiz` / `is_vert` flags;
`none` models the early `return` when the zigzag index reaches 64. -/
def rleLoop (q : Nat) :
    List TCoefficient → Nat → (Fin 8 → Fin 8 → Int) → Bool → Bool →
    Option ((Fin 8 → Fin 8 → Int) × Bool × Bool)
  | [], _, g, ih, iv => some (g, ih, iv)
  | t :: rest, zi, g, ih, iv =>
    let zi' := zi + t.run
    if 64 ≤ zi' then none
    else
      let val := dequant_value q t.level
      let g' := gridSet g (zigY zi') (zigX zi') val
      let ih' := if val ≠ 0 ∧ zigY zi' ≠ 0 then false else ih
      let iv' := if val ≠ 0 ∧ zigX zi' ≠ 0 then false else iv
      rleLoop q rest (zi' + 1) g' ih' iv'

/-- The final `match (is_horiz, is_vert)` of `inverse_rle` in rle.rs, turning
the walked 8x8 grid and the two classification flags into a `DecodedDctBlock`. -/
def classifyBlock (g : Fin 8 → Fin 8 → Int) (ih iv : Bool) : DecodedDctBlock :=
  match ih, iv with
  | true, true => if g 0 0 = 0 then .Zero else .Dc (g 0 0)
  | true, false => .Horiz (fun x => g 0 x)
  | false, true => .Vert (fun y => g y 0)
  | false, false => .Full g

/-- `inverse_rle` from rle.rs, for a single block: the returned value is what
the function stores into `levels[block_id]`; `prev` is the prior content of
that slot, which is left in place when the early `return` fires. -/
def inverse_rle_block (b : EncodedBlock) (q : Nat) (prev : DecodedDctBlock) :
    DecodedDctBlock :=
  if b.tcoef.isEmpty then
    match b.intradc with
    | some dc =>
      let dc_level := intra_dc_into_level dc
      if dc_level = 0 then .Zero else .Dc dc_level
    | none => .Zero
  else
    let start : Nat × (Fin 8 → Fin 8 → Int) :=
      match b.intradc with
      | some dc => (1, gridSet zeroGrid 0 0 (intra_dc_into_level dc))
      | none => (0, zeroGrid)
    match rleLoop q b.tcoef start.1 start.2 true true with
    | none => prev
    | some (g, ih, iv) => classifyBlock g ih iv

/-- `inverse_rle` from rle.rs, including the `block_id` computation from the
block position and stride and the update of the `levels` array. -/
def inverse_rle (b : EncodedBlock) (levels : List DecodedDctBlock)
    (pos : Nat × Nat) (blk_per_line : Nat) (q : Nat) : List DecodedDctBlock :=
  let block_id := pos.1 / 8 + pos.2 / 8 * blk_per_line
  levels.set block_id (inverse_rle_block b q (levels.getD block_id .Zero))

/-- The accumulated zigzag scan index of each tcoef event, starting from a
given initial index: each event advances the index by its run before being
written, and by one more afterwards. -/
def scan_positions : Nat → List TCoefficient → List (Nat × TCoefficient)
  | _, [] => []
  | zi, t :: rest => (zi + t.run, t) :: scan_positions (zi + t.run + 1) rest

/-- The zigzag scan index that the tcoef walk of `inverse_rle` starts from:
1 when an `INTRADC` coefficient occupies scan index 0, otherwise 0. -/
def rle_start (b : EncodedBlock) : Nat :=
  match b.intradc with
  | some _ => 1
  | none => 0

/-- The de-zig-zag map is injective on scan indices below 64. -/
theorem zig_inj : ∀ i < 64, ∀ j < 64,
    zigY i = zigY j → zigX i = zigX j → i = j := by decide

/-- Scan indices produced by `scan_positions` are at least the start index. -/
theorem scan_positions_ge (l : List TCoefficient) : ∀ (zi : Nat)
    (p : Nat × TCoefficient), p ∈ scan_positions zi l → zi ≤ p.1 := by
  induction l with
  | nil => intro zi p hp; simp [scan_positions] at hp
  | cons t rest ih =>
    intro zi p hp
    simp only [scan_positions, List.mem_cons] at hp
    rcases hp with h | h
    · subst h; omega
    · have := ih (zi + t.run + 1) p h; omega

/-- Scan indices produced by `scan_positions` are strictly increasing. -/
theorem scan_positions_pairwise (l : List TCoefficient) : ∀ (zi : Nat),
    (scan_positions zi l).Pairwise (fun a b => a.1 < b.1) := by
  induction l with
  | nil => intro zi; simp [scan_positions]
  | cons t rest ih =>
    intro zi
    simp only [scan_positions, List.pairwise_cons]
    exact ⟨fun p hp => by have := scan_positions_ge rest (zi + t.run + 1) p hp; omega,
      ih (zi + t.run + 1)⟩

/-- The grid updates performed by the tcoef walk, as a fold over the scan
positions. -/
def applyWrites (q : Nat) (ps : List (Nat × TCoefficient))
    (g : Fin 8 → Fin 8 → Int) : Fin 8 → Fin 8 → Int :=
  ps.foldl (fun g p => gridSet g (zigY p.1) (zigX p.1) (dequant_value q p.2.level)) g

/-- A position written by none of the scan positions keeps its prior value. -/
theorem applyWrites_get_untouched (q : Nat) :
    ∀ (ps : List (Nat × TCoefficient)) (g : Fin 8 → Fin 8 → Int) (y x : Fin 8),
    (∀ p ∈ ps, ¬(zigY p.1 = y ∧ zigX p.1 = x)) →
    applyWrites q ps g y x = g y x := by
  intro ps
  induction ps with
  | nil => intro g y x _; rfl
  | cons a rest ih =>
    intro g y x h
    have hrest := ih (gridSet g (zigY a.1) (zigX a.1) (dequant_value q a.2.level)) y x
      (fun p hp => h p (List.mem_cons_of_mem _ hp))
    have ha := h a (List.mem_cons_self a rest)
    calc applyWrites q (a :: rest) g y x
        = applyWrites q rest (gridSet g (zigY a.1) (zigX a.1) (dequant_value q a.2.level)) y x := rfl
      _ = gridSet g (zigY a.1) (zigX a.1) (dequant_value q a.2.level) y x := hrest
      _ = g y x := by
          unfold gridSet
          rw [if_neg]
          intro hc
          exact ha ⟨hc.1.symm ▸ rfl, hc.2.symm ▸ rfl⟩

/-- Each scan position's write survives to the end of the walk, because
later scan indices are strictly larger and map to different positions. -/
theorem applyWrites_get_mem (q : Nat) :
    ∀ (ps : List (Nat × TCoefficient)) (g : Fin 8 → Fin 8 → Int)
      (p : Nat × TCoefficient), p ∈ ps →
    ps.Pairwise (fun a b => a.1 < b.1) →
    (∀ p' ∈ ps, p'.1 < 64) →
    applyWrites q ps g (zigY p.1) (zigX p.1) = dequant_value q p.2.level := by
  intro ps
  induction ps with
  | nil => intro g p hp; simp at hp
  | cons a rest ih =>
    intro g p hp hpair hlt
    rcases List.mem_cons.1 hp with rfl | hmem
    · have h64 : p.1 < 64 := hlt p (List.mem_cons_self _ _)
      have huntouched : ∀ p' ∈ rest, ¬(zigY p'.1 = zigY p.1 ∧ zigX p'.1 = zigX p.1) := by
        intro p' hp' hc
        have hlt' : p.1 < p'.1 := (List.pairwise_cons.1 hpair).1 p' hp'
        have h64' : p'.1 < 64 := hlt p' (List.mem_cons_of_mem _ hp')
        have := zig_inj p'.1 h64' p.1 h64 hc.1 hc.2
        omega
      calc applyWrites q (p :: rest) g (zigY p.1) (zigX p.1)
          = applyWrites q rest
              (gridSet g (zigY p.1) (zigX p.1) (dequant_value q p.2.level))
              (zigY p.1) (zigX p.1) := rfl
        _ = gridSet g (zigY p.1) (zigX p.1) (dequant_value q p.2.level)
              (zigY p.1) (zigX p.1) :=
            applyWrites_get_untouched q rest _ _ _ huntouched
        _ = dequant_value q p.2.level := by unfold gridSet; rw [if_pos ⟨rfl, rfl⟩]
    · exact ih _ p hmem (List.pairwise_cons.1 hpair).2
        (fun p' hp' => hlt p' (List.mem_cons_of_mem _ hp'))

/-- Everything outside row 0 of the grid is zero. -/
def offRow0 (g : Fin 8 → Fin 8 → Int) : Prop :=
  ∀ (y x : Fin 8), y ≠ 0 → g y x = 0

/-- Everything outside column 0 of the grid is zero. -/
def offCol0 (g : Fin 8 → Fin 8 → Int) : Prop :=
  ∀ (y x : Fin 8), x ≠ 0 → g y x = 0

/-- The tcoef walk of `inverse_rle` succeeds when no accumulated scan index
reaches 64; the resulting grid is the fold of the dequantised writes, and the
`is_horiz` / `is_vert` flags still guarantee that the grid vanishes outside
row 0 / column 0 respectively whenever they remain set. -/
theorem rleLoop_ok (q : Nat) :
    ∀ (l : List TCoefficient) (zi : Nat) (g : Fin 8 → Fin 8 → Int) (ih iv : Bool),
    (∀ p ∈ scan_positions zi l, p.1 < 64) →
    ∃ ih' iv', rleLoop q l zi g ih iv =
        some (applyWrites q (scan_positions zi l) g, ih', iv') ∧
      ((ih = true → offRow0 g) → ih' = true →
        offRow0 (applyWrites q (scan_positions zi l) g)) ∧
      ((iv = true → offCol0 g) → iv' = true →
        offCol0 (applyWrites q (scan_positions zi l) g)) := by
  intro l
  induction l with
  | nil =>
    intro zi g ih iv _
    exact ⟨ih, iv, rfl, fun h hih => h hih, fun h hiv => h hiv⟩
  | cons t rest IH =>
    intro zi g ih iv hlt
    have hhead : zi + t.run < 64 := by
      have := hlt (zi + t.run, t) (by simp [scan_positions])
      exact this
    have h64 : ¬ 64 ≤ zi + t.run := by omega
    set val := dequant_value q t.level with hval
    set g' := gridSet g (zigY (zi + t.run)) (zigX (zi + t.run)) val with hg'
    set ih2 := if val ≠ 0 ∧ zigY (zi + t.run) ≠ 0 then false else ih with hih2
    set iv2 := if val ≠ 0 ∧ zigX (zi + t.run) ≠ 0 then false else iv with hiv2
    have hrest : ∀ p ∈ scan_positions (zi + t.run + 1) rest, p.1 < 64 := by
      intro p hp
      exact hlt p (by simp [scan_positions, hp])
    obtain ⟨ih', iv', heq, hr, hc⟩ := IH (zi + t.run + 1) g' ih2 iv2 hrest
    refine ⟨ih', iv', ?_, ?_, ?_⟩
    · show rleLoop q (t :: rest) zi g ih iv = _
      simp only [rleLoop, if_neg h64]
      rw [← hval, ← hg', ← hih2, ← hiv2, heq]
      rfl
    · intro hih0 hih'
      have : applyWrites q (scan_positions zi (t :: rest)) g =
          applyWrites q (scan_positions (zi + t.run + 1) rest) g' := rfl
      rw [this]
      refine hr ?_ hih'
      intro h2
      have hcase : ¬ (val ≠ 0 ∧ zigY (zi + t.run) ≠ 0) := by
        intro hcontra
        rw [hih2, if_pos hcontra] at h2
        exact Bool.false_ne_true h2
      have hih3 : ih = true := by
        rw [hih2, if_neg hcase] at h2; exact h2
      intro y x hy
      rw [hg']
      unfold gridSet
      split_ifs with hyx
      · rcases not_and_or.1 hcase with h | h
        · exact not_not.1 h
        · exact absurd (hyx.1 ▸ hy) (not_not.1 (by simpa using h) ▸ fun hh => hh rfl)
      · exact hih0 hih3 y x hy
    · intro hiv0 hiv'
      have : applyWrites q (scan_positions zi (t :: rest)) g =
          applyWrites q (scan_positions (zi + t.run + 1) rest) g' := rfl
      rw [this]
      refine hc ?_ hiv'
      intro h2
      have hcase : ¬ (val ≠ 0 ∧ zigX (zi + t.run) ≠ 0) := by
        intro hcontra
        rw [hiv2, if_pos hcontra] at h2
        exact Bool.false_ne_true h2
      have hiv3 : iv = true := by
        rw [hiv2, if_neg hcase] at h2; exact h2
      intro y x hx
      rw [hg']
      unfold gridSet
      split_ifs with hyx
      · rcases not_and_or.1 hcase with h | h
        · exact not_not.1 h
        · exact absurd (hyx.2 ▸ hx) (not_not.1 (by simpa using h) ▸ fun hh => hh rfl)
      · exact hiv0 hiv3 y x hx

/-- As long as the classification flags honestly describe the grid, reading
the classified `DecodedDctBlock` agrees with reading the grid everywhere. -/
theorem dctGet_Zero (y x : Fin 8) : dctGet .Zero y x = 0 := rfl

theorem dctGet_Dc (dc : Int) (y x : Fin 8) :
    dctGet (.Dc dc) y x = if y = 0 ∧ x = 0 then dc else 0 := rfl

theorem dctGet_Horiz (row : Fin 8 → Int) (y x : Fin 8) :
    dctGet (.Horiz row) y x = if y = 0 then row x else 0 := rfl

theorem dctGet_Vert (col : Fin 8 → Int) (y x : Fin 8) :
    dctGet (.Vert col) y x = if x = 0 then col y else 0 := rfl

theorem dctGet_Full (g : Fin 8 → Fin 8 → Int) (y x : Fin 8) :
    dctGet (.Full g) y x = g y x := rfl

theorem classifyBlock_get (g : Fin 8 → Fin 8 → Int) (ih iv : Bool)
    (hih : ih = true → offRow0 g) (hiv : iv = true → offCol0 g) (y x : Fin 8) :
    dctGet (classifyBlock g ih iv) y x = g y x := by
  cases ih <;> cases iv
  · rfl
  · show dctGet (.Vert _) y x = g y x
    rw [dctGet_Vert]
    split_ifs with hx
    · rw [hx]
    · exact (hiv rfl y x hx).symm
  · show dctGet (.Horiz _) y x = g y x
    rw [dctGet_Horiz]
    split_ifs with hy
    · rw [hy]
    · exact (hih rfl y x hy).symm
  · show dctGet (if g 0 0 = 0 then .Zero else .Dc (g 0 0)) y x = g y x
    by_cases hzero : g 0 0 = 0
    · rw [if_pos hzero, dctGet_Zero]
      by_cases hy : y = 0
      · by_cases hx : x = 0
        · rw [hy, hx, hzero]
        · exact (hiv rfl y x hx).symm
      · exact (hih rfl y x hy).symm
    · rw [if_neg hzero, dctGet_Dc]
      split_ifs with hyx
      · rw [hyx.1, hyx.2]
      · rcases not_and_or.1 hyx with hy | hx
        · exact (hih rfl y x hy).symm
        · exact (hiv rfl y x hx).symm

/-- The initial grid of the tcoef walk (zero, or zero with the INTRADC level
at position (0,0)) vanishes off row 0 and off column 0. -/
theorem initial_grid_off (v : Int) :
    offRow0 (gridSet zeroGrid 0 0 v) ∧ offCol0 (gridSet zeroGrid 0 0 v) ∧
    offRow0 zeroGrid ∧ offCol0 zeroGrid := by
  refine ⟨?_, ?_, fun _ _ _ => rfl, fun _ _ _ => rfl⟩
  · intro y x hy
    unfold gridSet zeroGrid
    rw [if_neg (fun hc => hy hc.1)]
  · intro y x hx
    unfold gridSet zeroGrid
    rw [if_neg (fun hc => hx hc.2)]

/-- C7: dequantisation.  For quantisers 1..=31 and any encoded block whose
accumulated zigzag scan indices all stay below 64, `inverse_rle` (on a
zero-initialised slot) stores at the de-zig-zagged position of each tcoef
event the value `sign(level) * (quant * (2*|level|+1) + parity)` clamped to
[-2048, 2047], where parity is 0 for odd quant and -1 for even quant, and
every scan position not reached by any run (other than the INTRADC position)
holds zero. -/
theorem c7_inverse_rle_dequantisation (b : EncodedBlock) (q : Nat)
    (hq1 : 1 ≤ q) (hq2 : q ≤ 31)
    (hlt : ∀ p ∈ scan_positions (rle_start b) b.tcoef, p.1 < 64) :
    (∀ p ∈ scan_positions (rle_start b) b.tcoef,
      dctGet (inverse_rle_block b q .Zero) (zigY p.1) (zigX p.1) =
        rustClamp (Int.sign p.2.level *
          ((q : Int) * (2 * |p.2.level| + 1) + (if q % 2 = 1 then 0 else -1)))
          (-2048) 2047) ∧
    (∀ z : Nat, z < 64 →
      z ∉ (scan_positions (rle_start b) b.tcoef).map Prod.fst →
      (z ≠ 0 ∨ b.intradc = none) →
      dctGet (inverse_rle_block b q .Zero) (zigY z) (zigX z) = 0) := by
  have hzig0 : zigY 0 = 0 ∧ zigX 0 = 0 := by decide
  by_cases hemp : b.tcoef.isEmpty
  · have hnil : b.tcoef = [] := List.isEmpty_iff.1 hemp
    constructor
    · intro p hp
      rw [hnil] at hp
      simp [scan_positions] at hp
    · intro z hz64 _ hcond
      have hout : inverse_rle_block b q .Zero =
          match b.intradc with
          | some dc =>
            if intra_dc_into_level dc = 0 then .Zero else .Dc (intra_dc_into_level dc)
          | none => .Zero := by
        unfold inverse_rle_block
        rw [if_pos hemp]
      rcases hdc : b.intradc with _ | dc
      · rw [hout, hdc]
        rfl
      · have hz0 : z ≠ 0 := by
          rcases hcond with h | h
          · exact h
          · rw [hdc] at h; exact absurd h (by simp)
        have hpos : ¬(zigY z = 0 ∧ zigX z = 0) := by
          intro hc
          exact hz0 (zig_inj z hz64 0 (by norm_num)
            (hc.1.trans hzig0.1.symm) (hc.2.trans hzig0.2.symm))
        rw [hout, hdc]
        show dctGet (if intra_dc_into_level dc = 0 then .Zero
          else .Dc (intra_dc_into_level dc)) (zigY z) (zigX z) = 0
        split_ifs with h0
        · rfl
        · show (if zigY z = 0 ∧ zigX z = 0 then intra_dc_into_level dc else 0) = 0
          rw [if_neg hpos]
  · rcases hdc : b.intradc with _ | dc
    all_goals {
      first
      | (have hstart : rle_start b = 0 := by unfold rle_start; rw [hdc]
         have hg1 : offRow0 zeroGrid ∧ offCol0 zeroGrid :=
           ⟨(initial_grid_off 0).2.2.1, (initial_grid_off 0).2.2.2⟩
         obtain ⟨ih', iv', heq, hr, hc⟩ := rleLoop_ok q b.tcoef 0 zeroGrid true true
           (by rw [hstart] at hlt; exact hlt)
         have hout : inverse_rle_block b q .Zero =
             classifyBlock (applyWrites q (scan_positions 0 b.tcoef) zeroGrid) ih' iv' := by
           unfold inverse_rle_block
           rw [if_neg hemp, hdc]
           simp only [heq]
         have hoffr := hr (fun _ => hg1.1)
         have hoffc := hc (fun _ => hg1.2)
         refine ⟨?_, ?_⟩
         · intro p hp
           rw [hstart] at hp
           rw [hout, classifyBlock_get _ _ _ hoffr hoffc]
           rw [applyWrites_get_mem q _ zeroGrid p hp
             (scan_positions_pairwise b.tcoef 0)
             (by rw [hstart] at hlt; exact hlt)]
           rfl
         · intro z hz64 hmem _
           rw [hstart] at hmem
           rw [hout, classifyBlock_get _ _ _ hoffr hoffc]
           rw [applyWrites_get_untouched q _ zeroGrid (zigY z) (zigX z) ?_]
           · rfl
           · intro p hp hpc
             have hp64 : p.1 < 64 := by rw [hstart] at hlt; exact hlt p hp
             have : p.1 = z := zig_inj p.1 hp64 z hz64 hpc.1 hpc.2
             exact hmem (this ▸ List.mem_map_of_mem Prod.fst hp))
      | (have hstart : rle_start b = 1 := by unfold rle_start; rw [hdc]
         set g1 := gridSet zeroGrid 0 0 (intra_dc_into_level dc) with hg1def
         have hg1 : offRow0 g1 ∧ offCol0 g1 :=
           ⟨(initial_grid_off _).1, (initial_grid_off _).2.1⟩
         obtain ⟨ih', iv', heq, hr, hc⟩ := rleLoop_ok q b.tcoef 1 g1 true true
           (by rw [hstart] at hlt; exact hlt)
         have hout : inverse_rle_block b q .Zero =
             classifyBlock (applyWrites q (scan_positions 1 b.tcoef) g1) ih' iv' := by
           unfold inverse_rle_block
           rw [if_neg hemp, hdc]
           simp only [heq]
         have hoffr := hr (fun _ => hg1.1)
         have hoffc := hc (fun _ => hg1.2)
         refine ⟨?_, ?_⟩
         · intro p hp
           rw [hstart] at hp
           rw [hout, classifyBlock_get _ _ _ hoffr hoffc]
           rw [applyWrites_get_mem q _ g1 p hp
             (scan_positions_pairwise b.tcoef 1)
             (by rw [hstart] at hlt; exact hlt)]
           rfl
         · intro z hz64 hmem hcond
           have hz0 : z ≠ 0 := by
             rcases hcond with h | h
             · exact h
             · exact absurd h (by simp)
           rw [hstart] at hmem
           rw [hout, classifyBlock_get _ _ _ hoffr hoffc]
           rw [applyWrites_get_untouched q _ g1 (zigY z) (zigX z) ?_]
           · rw [hg1def]
             unfold gridSet
             rw [if_neg ?_]
             · rfl
             · intro hcontra
               have hzy : zigY z = 0 := hcontra.1
               have hzx : zigX z = 0 := hcontra.2
               exact hz0 (zig_inj z hz64 0 (by norm_num)
                 (hzy.trans hzig0.1.symm) (hzx.trans hzig0.2.symm))
           · intro p hp hpc
             have hp64 : p.1 < 64 := by rw [hstart] at hlt; exact hlt p hp
             have : p.1 = z := zig_inj p.1 hp64 z hz64 hpc.1 hpc.2
             exact hmem (this ▸ List.mem_map_of_mem Prod.fst hp))
    }

/-- Witness for C7 on a concrete block: INTRADC byte 2 with two tcoef
events (run 3, level 5) and (run 0, level -1), quantiser 4. -/
theorem c7_inverse_rle_dequantisation_witness :
    (∀ p ∈ scan_positions
        (rle_start (EncodedBlock.mk (some 2) [⟨false, 3, 5⟩, ⟨true, 0, -1⟩]))
        (EncodedBlock.mk (some 2) [⟨false, 3, 5⟩, ⟨true, 0, -1⟩]).tcoef,
      dctGet (inverse_rle_block
          (EncodedBlock.mk (some 2) [⟨false, 3, 5⟩, ⟨true, 0, -1⟩]) 4 .Zero)
          (zigY p.1) (zigX p.1) =
        rustClamp (Int.sign p.2.level *
          ((4 : Int) * (2 * |p.2.level| + 1) + (if 4 % 2 = 1 then 0 else -1)))
          (-2048) 2047) ∧
    (∀ z : Nat, z < 64 →
      z ∉ (scan_positions
        (rle_start (EncodedBlock.mk (some 2) [⟨false, 3, 5⟩, ⟨true, 0, -1⟩]))
        (EncodedBlock.mk (some 2) [⟨false, 3, 5⟩, ⟨true, 0, -1⟩]).tcoef).map Prod.fst →
      (z ≠ 0 ∨ (EncodedBlock.mk (some 2) [⟨false, 3, 5⟩, ⟨true, 0, -1⟩]).intradc = none) →
      dctGet (inverse_rle_block
          (EncodedBlock.mk (some 2) [⟨false, 3, 5⟩, ⟨true, 0, -1⟩]) 4 .Zero)
          (zigY z) (zigX z) = 0) :=
  c7_inverse_rle_dequantisation (EncodedBlock.mk (some 2) [⟨false, 3, 5⟩, ⟨true, 0, -1⟩])
    4 (by norm_num) (by norm_num) (by decide)

/-! ## Bitstream reader (src/h263/src/parser/reader.rs) -/

/-- The error type of the h263 crate (`crate::error::Error`; its declaration
file is not among the provided sources, but the variants used by the embedded
functions are all named at their use sites in reader.rs and state.rs). -/
inductive H263Error where
  | UnhandledIoError : H263Error
  | InternalDecoderError : H263Error
  | MiddleOfBitstream : H263Error
  | InvalidBitstream : H263Error
  | PictureFormatMissing : H263Error
  | PictureFormatInvalid : H263Error
  | UncodedIFrameBlocks : H263Error
  | InvalidMVD : H263Error
deriving DecidableEq

/-- `H263Reader` from parser/reader.rs: the unread bytes of the underlying
`Read` source, the internal `VecDeque<u8>` buffer, and `bits_read`. -/
structure H263Reader where
  source : List Nat
  buffer : List Nat
  bits_read : Nat
deriving DecidableEq

/-- `H263Reader::buffer_bytes`: pull the given number of bytes from the
source into the buffer; an exhausted source yields the wrapped I/O error,
with the bytes read so far remaining buffered. -/
def buffer_bytes : Nat → H263Reader → (Except H263Error Unit) × H263Reader
  | 0, r => (.ok (), r)
  | n + 1, r =>
    match hs : r.source with
    | [] => (.error .UnhandledIoError, r)
    | b :: rest => buffer_bytes n ⟨rest, r.buffer ++ [b], r.bits_read⟩

/-- `H263Reader::needed_bytes_for_bits` (all subtractions saturating). -/
def needed_bytes_for_bits (r : H263Reader) (bits_needed : Nat) : Nat :=
  let bits_available := 8 * r.buffer.length - r.bits_read
  let bits_short := bits_needed - bits_available
  bits_short / 8 + (if bits_short % 8 ≠ 0 then 1 else 0)

/-- `H263Reader::ensure_bits`. -/
def ensure_bits (bits_needed : Nat) (r : H263Reader) :
    (Except H263Error Unit) × H263Reader :=
  buffer_bytes (needed_bytes_for_bits r bits_needed) r

/-- The byte-by-byte accumulation loop of `H263Reader::peek_bits`, walking
the buffer from the first partially-read byte: each step shifts the byte left
by the bits already consumed from it (wrapping, as u8), shifts the
accumulator up by the number of bits taken from this byte, and ors in the top
bits of the byte. -/
def peekLoop : List Nat → Nat → Nat → Nat → Nat
  | _, _, 0, accum => accum
  | [], _, _ + 1, accum => accum
  | byte :: rest, bits_off, bits_needed + 1, accum =>
    let byte' := (byte <<< bits_off) % 256
    let bits_in_byte := 8 - bits_off
    let bits_to_shift_in := min bits_in_byte (bits_needed + 1)
    peekLoop rest 0 (bits_needed + 1 - bits_to_shift_in)
      ((accum <<< bits_to_shift_in) ||| (byte' >>> (8 - bits_to_shift_in)))

/-- `H263Reader::peek_bits` for a `u32` target type: the `checked_shl`
guard rejects widths over 32, a zero width reads nothing, and otherwise the
big-endian bits starting at `bits_read` are accumulated after the buffer has
been topped up by `ensure_bits` (whose partial buffering survives an error). -/
def peek_bits (bits_needed : Nat) (r : H263Reader) :
    (Except H263Error Nat) × H263Reader :=
  if 32 < bits_needed then (.error .InternalDecoderError, r)
  else if bits_needed = 0 then (.ok 0, r)
  else
    match ensure_bits bits_needed r with
    | (.error e, r') => (.error e, r')
    | (.ok _, r') =>
      (.ok (peekLoop (r'.buffer.drop (r'.bits_read / 8)) (r'.bits_read % 8)
        bits_needed 0), r')

/-- `H263Reader::skip_bits`. -/
def skip_bits (bits_to_skip : Nat) (r : H263Reader) :
    (Except H263Error Unit) × H263Reader :=
  match ensure_bits bits_to_skip r with
  | (.error e, r') => (.error e, r')
  | (.ok _, r') => (.ok (), ⟨r'.source, r'.buffer, r'.bits_read + bits_to_skip⟩)

/-- `H263Reader::realignment_bits`: `(8 - (self.bits_read % 8) as u32) % 8`. -/
def realignment_bits (r : H263Reader) : Nat :=
  (8 - r.bits_read % 8) % 8

/-- `H263Reader::rollback`: restore a checkpointed `bits_read`, failing when
the checkpoint exceeds the buffered bits. -/
def reader_rollback (checkpoint : Nat) (r : H263Reader) :
    (Except H263Error Unit) × H263Reader :=
  if 8 * r.buffer.length < checkpoint then (.error .InternalDecoderError, r)
  else (.ok (), ⟨r.source, r.buffer, checkpoint⟩)

/-- `H263Reader::commit`: drain the consumed whole bytes from the buffer. -/
def reader_commit (r : H263Reader) : H263Reader :=
  ⟨r.source, r.buffer.drop (r.bits_read / 8), r.bits_read % 8⟩

/-- `H263Reader::with_transaction`: checkpoint, run the body, and roll the
bit position back if the body failed (propagating a rollback failure). -/
def with_transaction {α : Type}
    (f : H263Reader → (Except H263Error α) × H263Reader) (r : H263Reader) :
    (Except H263Error α) × H263Reader :=
  let checkpoint := r.bits_read
  let fr := f r
  match fr.1 with
  | .error e =>
    match reader_rollback checkpoint fr.2 with
    | (.ok _, r2) => (.error e, r2)
    | (.error e2, r2) => (.error e2, r2)
  | .ok a => (.ok a, fr.2)

/-- `H263Reader::with_lookahead`: checkpoint, run the body, and always roll
the bit position back (propagating a rollback failure). -/
def with_lookahead {α : Type}
    (f : H263Reader → (Except H263Error α) × H263Reader) (r : H263Reader) :
    (Except H263Error α) × H263Reader :=
  let checkpoint := r.bits_read
  let fr := f r
  match reader_rollback checkpoint fr.2 with
  | (.ok _, r2) => (fr.1, r2)
  | (.error e2, r2) => (.error e2, r2)

/-- The scan loop of `H263Reader::recognize_start_code`: peek 17 bits; if
they are the start code pattern report the bits skipped so far; otherwise in
normal mode give up once the skip count exceeds the realignment distance,
else skip one bit and retry.  The Rust `while` loop terminates because every
iteration either returns or consumes a bit until peeking fails at the end of
the stream; the fuel argument (instantiated above any reachable iteration
count) makes that termination explicit. -/
def rscLoop (in_error : Bool) (max_skip_bits : Nat) :
    Nat → Nat → H263Reader → (Except H263Error (Option Nat)) × H263Reader
  | 0, _, r => (.error .InternalDecoderError, r)
  | fuel + 1, skip_bits_count, r =>
    match peek_bits 17 r with
    | (.error e, r') => (.error e, r')
    | (.ok maybe_code, r') =>
      if maybe_code = 1 then (.ok (some skip_bits_count), r')
      else if in_error = false ∧ max_skip_bits < skip_bits_count then (.ok none, r')
      else
        match skip_bits 1 r' with
        | (.error e, r2) => (.error e, r2)
        | (.ok _, r2) => rscLoop in_error max_skip_bits fuel (skip_bits_count + 1) r2

/-- `H263Reader::recognize_start_code` from parser/reader.rs. -/
def recognize_start_code (in_error : Bool) (r : H263Reader) :
    (Except H263Error (Option Nat)) × H263Reader :=
  with_lookahead (fun r0 =>
    rscLoop in_error (realignment_bits r0)
      (8 * (r0.buffer.length + r0.source.length) + 32) 0 r0) r

example :
    (recognize_start_code false (H263Reader.mk [0, 0, 8, 0] [] 0)).1 = .ok none := rfl

/-- C9: start-code recognition.  On the byte stream [0x00, 0x00, 0x08, 0x00]
the two documented examples hold (None from an aligned cursor, Some 3 from
bit 1), and the cursor is never advanced.  But the documented bound on the
stuffing distance is violated: on [0x80, 0x00, 0x40] with the cursor at bit 0
the realignment distance is 0, yet the function reports a start code 1
stuffing bit ahead, because the guard `skip_bits > max_skip_bits` is only
tested before a skip, so a code found exactly one bit past the alignment
bound is still accepted. -/
theorem c9_recognize_start_code_off_by_one :
    (recognize_start_code false (H263Reader.mk [0, 0, 8, 0] [] 0)).1 = .ok none ∧
    (recognize_start_code false (H263Reader.mk [0, 0, 8, 0] [] 0)).2.bits_read = 0 ∧
    (recognize_start_code false ((skip_bits 1 (H263Reader.mk [0, 0, 8, 0] [] 0)).2)).1 =
      .ok (some 3) ∧
    (recognize_start_code false ((skip_bits 1 (H263Reader.mk [0, 0, 8, 0] [] 0)).2)).2.bits_read = 1 ∧
    realignment_bits (H263Reader.mk [128, 0, 64] [] 0) = 0 ∧
    (recognize_start_code false (H263Reader.mk [128, 0, 64] [] 0)).1 = .ok (some 1) ∧
    (recognize_start_code false (H263Reader.mk [128, 0, 64] [] 0)).2.bits_read = 0 :=
  ⟨rfl, rfl, rfl, rfl, rfl, rfl, rfl⟩

/-! ## Decoder state (src/h263/src/decoder/state.rs) -/

/-- `PictureTypeCode` from types.rs. -/
inductive PictureTypeCode where
  | IFrame : PictureTypeCode
  | PFrame : PictureTypeCode
  | PbFrame : PictureTypeCode
  | ImprovedPbFrame : PictureTypeCode
  | BFrame : PictureTypeCode
  | EiFrame : PictureTypeCode
  | EpFrame : PictureTypeCode
  | Reserved (mpptype : Nat) : PictureTypeCode
  | DisposablePFrame : PictureTypeCode
deriving DecidableEq

/-- `PictureTypeCode::is_disposable` from types.rs. -/
def PictureTypeCode.is_disposable (t : PictureTypeCode) : Bool :=
  match t with
  | .DisposablePFrame => true
  | _ => false

/-- Modelled from the spec: `DecodedPicture` (decoder/picture.rs is absent
from the provided sources).  The spec describes it as a picture header plus
the three planar buffers; only the header fields consulted by the state
bookkeeping in state.rs - the temporal reference and the picture type - are
modelled here. -/
structure DecodedPicture where
  temporal_reference : Nat
  picture_type : PictureTypeCode
deriving DecidableEq

/-- `HashMap::get` on the reference map, modelled on an association list
with unique keys. -/
def map_get (k : Nat) : List (Nat × DecodedPicture) → Option DecodedPicture
  | [] => none
  | (k', v) :: rest => if k' = k then some v else map_get k rest

/-- `HashMap::remove_entry`: the removed key-value pair, if present, and the
remaining map. -/
def map_remove_entry (k : Nat) :
    List (Nat × DecodedPicture) →
    Option (Nat × DecodedPicture) × List (Nat × DecodedPicture)
  | [] => (none, [])
  | (k', v) :: rest =>
    if k' = k then (some (k', v), rest)
    else
      let r := map_remove_entry k rest
      (r.1, (k', v) :: r.2)

/-- `HashMap::insert` (replacing any previous entry under the key). -/
def map_insert (k : Nat) (v : DecodedPicture) (m : List (Nat × DecodedPicture)) :
    List (Nat × DecodedPicture) :=
  (k, v) :: (map_remove_entry k m).2

/-- `H263State` from state.rs.  `decoder_options` and `running_options` are
bitflag words, modelled as plain naturals. -/
structure H263State where
  decoder_options : Nat
  last_picture : Option Nat
  reference_picture : Option Nat
  running_options : Nat
  reference_states : List (Nat × DecodedPicture)
deriving DecidableEq

/-- `H263State::new`. -/
def H263State.new (decoder_options : Nat) : H263State :=
  ⟨decoder_options, none, none, 0, []⟩

/-- `H263State::get_last_picture`: `None` unless `last_picture` is set, else
the reference map entry under the `last_picture` key. -/
def get_last_picture (s : H263State) : Option DecodedPicture :=
  if s.last_picture.isNone then none
  else
    match s.last_picture with
    | some lp => map_get lp s.reference_states
    | none => none

/-- `H263State::get_reference_picture`, exactly as written in state.rs: the
guard tests `reference_picture`, but the map lookup is done under the
`last_picture` key (`self.reference_states.get(&self.last_picture.unwrap())`).
The `unwrap` panic is unreachable in reachable states (whenever
`reference_picture` is set, a picture has been decoded, so `last_picture` is
set too) and is modelled as `none`. -/
def get_reference_picture (s : H263State) : Option DecodedPicture :=
  if s.reference_picture.isNone then none
  else
    match s.last_picture with
    | some lp => map_get lp s.reference_states
    | none => none

/-- `H263State::cleanup_buffers` from state.rs: remove the entries keyed by
`last_picture` and then `reference_picture` (in that order, from the
successively shrinking map), then rebuild the map from just those entries. -/
def cleanup_buffers (s : H263State) : H263State :=
  let lastRes :=
    match s.last_picture with
    | some lp => map_remove_entry lp s.reference_states
    | none => (none, s.reference_states)
  let refRes :=
    match s.reference_picture with
    | some rp => map_remove_entry rp lastRes.2
    | none => (none, lastRes.2)
  let m0 : List (Nat × DecodedPicture) := []
  let m1 :=
    match lastRes.1 with
    | some kv => map_insert kv.1 kv.2 m0
    | none => m0
  let m2 :=
    match refRes.1 with
    | some kv => map_insert kv.1 kv.2 m1
    | none => m1
  ⟨s.decoder_options, s.last_picture, s.reference_picture, s.running_options, m2⟩

/-- Lines 436-455 of state.rs: the state update tail of
`decode_next_picture` once `next_decoded_picture` is fully decoded.  An
I-frame clears `reference_picture`; `last_picture` becomes this temporal
reference; a non-disposable picture updates `reference_picture`; the picture
is inserted into the reference map; and `cleanup_buffers` runs. -/
def decode_picture_tail (s : H263State) (pic : DecodedPicture) : H263State :=
  let s1 : H263State := if pic.picture_type = .IFrame then
      ⟨s.decoder_options, s.last_picture, none, s.running_options, s.reference_states⟩
    else s
  let this_tr := pic.temporal_reference
  let s2 : H263State := ⟨s1.decoder_options, some this_tr, s1.reference_picture,
    s1.running_options, s1.reference_states⟩
  let s3 : H263State := if ¬ pic.picture_type.is_disposable then
      ⟨s2.decoder_options, s2.last_picture, some this_tr, s2.running_options,
        s2.reference_states⟩
    else s2
  let s4 : H263State := ⟨s3.decoder_options, s3.last_picture, s3.reference_picture,
    s3.running_options, map_insert this_tr pic s3.reference_states⟩
  cleanup_buffers s4

/-- `H263State::decode_next_picture` from state.rs, with the parsing and
pixel-decoding phase (lines 131-430: `decode_picture`, the macroblock loop,
`gather` and the IDCT passes) abstracted as `parse`, a function that reads
the state immutably, consumes bits from the reader, and either fails or
produces the decoded picture.  The whole body runs inside
`with_transaction`; on success the state update tail runs and the reader is
committed.  The state is returned unchanged alongside any error, mirroring
the untouched `&mut self`. -/
def decode_next_picture
    (parse : H263State → H263Reader → (Except H263Error DecodedPicture) × H263Reader)
    (s : H263State) (r : H263Reader) :
    (Except H263Error Unit) × H263State × H263Reader :=
  let res := with_transaction (fun r =>
    match parse s r with
    | (.error e, r') => (.error e, r')
    | (.ok pic, r') => (.ok (decode_picture_tail s pic), reader_commit r')) r
  match res.1 with
  | .error e => (.error e, s, res.2)
  | .ok s' => (.ok (), s', res.2)

theorem map_remove_entry_fst (k : Nat) :
    ∀ m : List (Nat × DecodedPicture),
    (map_remove_entry k m).1 = (map_get k m).map (fun v => (k, v)) := by
  intro m
  induction m with
  | nil => rfl
  | cons hd rest ih =>
    rcases hd with ⟨k', v⟩
    by_cases h : k' = k
    · subst h
      simp [map_remove_entry, map_get]
    · simp [map_remove_entry, map_get, h, ih]

theorem map_get_remove_ne (k k' : Nat) (h : k' ≠ k) :
    ∀ m : List (Nat × DecodedPicture),
    map_get k' (map_remove_entry k m).2 = map_get k' m := by
  intro m
  induction m with
  | nil => rfl
  | cons hd rest ih =>
    rcases hd with ⟨k0, v⟩
    by_cases h0 : k0 = k
    · subst h0
      have hne : ¬ k0 = k' := fun hc => h (hc ▸ rfl)
      simp [map_remove_entry, map_get, hne]
    · by_cases h1 : k0 = k'
      · subst h1
        simp [map_remove_entry, map_get, h0]
      · simp [map_remove_entry, map_get, h0, h1, ih]

theorem map_remove_entry_len (k : Nat) :
    ∀ m : List (Nat × DecodedPicture),
    (map_remove_entry k m).2.length ≤ m.length := by
  intro m
  induction m with
  | nil => exact le_refl _
  | cons hd rest ih =>
    rcases hd with ⟨k0, v⟩
    by_cases h0 : k0 = k
    · simp [map_remove_entry, h0]
    · simp only [map_remove_entry, if_neg h0, List.length_cons]
      exact Nat.succ_le_succ ih

theorem map_remove_entry_mem (k : Nat) :
    ∀ (m : List (Nat × DecodedPicture)) (p : Nat × DecodedPicture),
    p ∈ (map_remove_entry k m).2 → p ∈ m := by
  intro m
  induction m with
  | nil => intro p hp; exact absurd hp (by simp [map_remove_entry])
  | cons hd rest ih =>
    intro p hp
    rcases hd with ⟨k0, v⟩
    by_cases h0 : k0 = k
    · simp only [map_remove_entry, if_pos h0] at hp
      exact List.mem_cons_of_mem _ hp
    · simp only [map_remove_entry, if_neg h0, List.mem_cons] at hp
      rcases hp with h | h
      · exact h ▸ List.mem_cons_self _ _
      · exact List.mem_cons_of_mem _ (ih p h)

theorem map_get_insert_self (k : Nat) (v : DecodedPicture)
    (m : List (Nat × DecodedPicture)) : map_get k (map_insert k v m) = some v := by
  simp [map_insert, map_get]

theorem map_get_insert_ne (k k' : Nat) (v : DecodedPicture) (h : k' ≠ k)
    (m : List (Nat × DecodedPicture)) :
    map_get k' (map_insert k v m) = map_get k' m := by
  have hk : ¬ k = k' := fun hc => h (hc ▸ rfl)
  simp only [map_insert, map_get, if_neg hk]
  exact map_get_remove_ne k k' h m

theorem cleanup_buffers_last (s : H263State) :
    (cleanup_buffers s).last_picture = s.last_picture := rfl

theorem cleanup_buffers_ref (s : H263State) :
    (cleanup_buffers s).reference_picture = s.reference_picture := rfl

/-- `cleanup_buffers` invariant: when the keys named by `last_picture` and
`reference_picture` are present beforehand, afterwards the map has at most
two entries, every entry is keyed by `last_picture` or `reference_picture`,
and both named keys are still present. -/
theorem cleanup_c1 (s4 : H263State)
    (hlast : ∀ tr, s4.last_picture = some tr → (map_get tr s4.reference_states).isSome)
    (href : ∀ tr, s4.reference_picture = some tr → (map_get tr s4.reference_states).isSome) :
    (cleanup_buffers s4).reference_states.length ≤ 2 ∧
    (∀ p ∈ (cleanup_buffers s4).reference_states,
      some p.1 = (cleanup_buffers s4).last_picture ∨
      some p.1 = (cleanup_buffers s4).reference_picture) ∧
    (∀ tr, (cleanup_buffers s4).last_picture = some tr →
      (map_get tr (cleanup_buffers s4).reference_states).isSome) ∧
    (∀ tr, (cleanup_buffers s4).reference_picture = some tr →
      (map_get tr (cleanup_buffers s4).reference_states).isSome) := by
  obtain ⟨dopts, lastF, refF, ropts, mapF⟩ := s4
  rcases lastF with _ | lp <;> rcases refF with _ | rp
  · -- last = none, ref = none
    refine ⟨by simp [cleanup_buffers], ?_, ?_, ?_⟩
    · intro p hp
      simp [cleanup_buffers] at hp
    · intro tr htr
      exact absurd htr (by simp [cleanup_buffers_last])
    · intro tr htr
      exact absurd htr (by simp [cleanup_buffers_ref])
  · -- last = none, ref = some rp
    obtain ⟨w, hw⟩ := Option.isSome_iff_exists.1 (href rp rfl)
    have hrm : (map_remove_entry rp mapF).1 = some (rp, w) := by
      rw [map_remove_entry_fst, hw]; rfl
    have hclean : (cleanup_buffers ⟨dopts, none, some rp, ropts, mapF⟩).reference_states
        = [(rp, w)] := by
      simp [cleanup_buffers, hrm, map_insert, map_remove_entry]
    refine ⟨by rw [hclean]; norm_num, ?_, ?_, ?_⟩
    · intro p hp
      rw [hclean] at hp
      rcases List.mem_singleton.1 hp with rfl
      right; rfl
    · intro tr htr
      exact absurd htr (by simp [cleanup_buffers_last])
    · intro tr htr
      rw [cleanup_buffers_ref] at htr
      have : tr = rp := by
        have := htr
        simp at this
        omega
      subst this
      rw [hclean]
      simp [map_get]
  · -- last = some lp, ref = none
    obtain ⟨v, hv⟩ := Option.isSome_iff_exists.1 (hlast lp rfl)
    have hlm : (map_remove_entry lp mapF).1 = some (lp, v) := by
      rw [map_remove_entry_fst, hv]; rfl
    have hclean : (cleanup_buffers ⟨dopts, some lp, none, ropts, mapF⟩).reference_states
        = [(lp, v)] := by
      simp [cleanup_buffers, hlm, map_insert, map_remove_entry]
    refine ⟨by rw [hclean]; norm_num, ?_, ?_, ?_⟩
    · intro p hp
      rw [hclean] at hp
      rcases List.mem_singleton.1 hp with rfl
      left; rfl
    · intro tr htr
      rw [cleanup_buffers_last] at htr
      have : tr = lp := by simp at htr; omega
      subst this
      rw [hclean]
      simp [map_get]
    · intro tr htr
      exact absurd htr (by simp [cleanup_buffers_ref])
  · -- last = some lp, ref = some rp
    obtain ⟨v, hv⟩ := Option.isSome_iff_exists.1 (hlast lp rfl)
    have hlm : (map_remove_entry lp mapF).1 = some (lp, v) := by
      rw [map_remove_entry_fst, hv]; rfl
    by_cases hrplp : rp = lp
    · subst hrplp
      -- both keys coincide; the second removal acts on the remainder
      rcases hrr : (map_remove_entry rp (map_remove_entry rp mapF).2).1 with _ | kv
      · have hclean : (cleanup_buffers ⟨dopts, some rp, some rp, ropts, mapF⟩).reference_states
            = [(rp, v)] := by
          simp [cleanup_buffers, hlm, hrr, map_insert, map_remove_entry]
        refine ⟨by rw [hclean]; norm_num, ?_, ?_, ?_⟩
        · intro p hp
          rw [hclean] at hp
          rcases List.mem_singleton.1 hp with rfl
          left; rfl
        · intro tr htr
          rw [cleanup_buffers_last] at htr
          have : tr = rp := by simp at htr; omega
          subst this
          rw [hclean]
          simp [map_get]
        · intro tr htr
          rw [cleanup_buffers_ref] at htr
          have : tr = rp := by simp at htr; omega
          subst this
          rw [hclean]
          simp [map_get]
      · have hkv : kv.1 = rp := by
          have := map_remove_entry_fst rp (map_remove_entry rp mapF).2
          rw [hrr] at this
          rcases hg : map_get rp (map_remove_entry rp mapF).2 with _ | w'
          · rw [hg] at this; exact absurd this (by simp)
          · rw [hg] at this
            simp at this
            rw [this]
        have hclean : (cleanup_buffers ⟨dopts, some rp, some rp, ropts, mapF⟩).reference_states
            = [(kv.1, kv.2)] := by
          simp [cleanup_buffers, hlm, hrr, hkv, map_insert, map_remove_entry]
        refine ⟨by rw [hclean]; norm_num, ?_, ?_, ?_⟩
        · intro p hp
          rw [hclean] at hp
          rcases List.mem_singleton.1 hp with rfl
          left
          rw [cleanup_buffers_last]
          simp [hkv]
        · intro tr htr
          rw [cleanup_buffers_last] at htr
          have : tr = rp := by simp at htr; omega
          subst this
          rw [hclean, ← hkv]
          simp [map_get]
        · intro tr htr
          rw [cleanup_buffers_ref] at htr
          have : tr = rp := by simp at htr; omega
          subst this
          rw [hclean, ← hkv]
          simp [map_get]
    · -- distinct keys: the reference entry survives the first removal
      obtain ⟨w, hw⟩ := Option.isSome_iff_exists.1 (href rp rfl)
      have hw2 : map_get rp (map_remove_entry lp mapF).2 = some w := by
        rw [map_get_remove_ne lp rp hrplp, hw]
      have hrm : (map_remove_entry rp (map_remove_entry lp mapF).2).1 = some (rp, w) := by
        rw [map_remove_entry_fst, hw2]; rfl
      have hlprp : ¬ lp = rp := fun h => hrplp h.symm
      have hclean : (cleanup_buffers ⟨dopts, some lp, some rp, ropts, mapF⟩).reference_states
          = [(rp, w), (lp, v)] := by
        simp [cleanup_buffers, hlm, hrm, map_insert, map_remove_entry, hlprp]
      refine ⟨by rw [hclean]; norm_num, ?_, ?_, ?_⟩
      · intro p hp
        rw [hclean] at hp
        rcases List.mem_cons.1 hp with rfl | hp2
        · right; rfl
        · rcases List.mem_singleton.1 hp2 with rfl
          left; rfl
      · intro tr htr
        rw [cleanup_buffers_last] at htr
        have : tr = lp := by simp at htr; omega
        subst this
        rw [hclean]
        simp [map_get, fun h => hrplp h]
      · intro tr htr
        rw [cleanup_buffers_ref] at htr
        have : tr = rp := by simp at htr; omega
        subst this
        rw [hclean]
        simp [map_get]

/-- The state update tail of `decode_next_picture` is `cleanup_buffers`
applied to the state with `last_picture` set to this temporal reference,
`reference_picture` cleared by an I-frame and then set by a non-disposable
picture, and the picture inserted into the reference map. -/
theorem decode_picture_tail_as_cleanup (s : H263State) (pic : DecodedPicture) :
    decode_picture_tail s pic = cleanup_buffers
      ⟨s.decoder_options, some pic.temporal_reference,
        (if pic.picture_type.is_disposable then
          (if pic.picture_type = .IFrame then none else s.reference_picture)
        else some pic.temporal_reference),
        s.running_options,
        map_insert pic.temporal_reference pic s.reference_states⟩ := by
  unfold decode_picture_tail
  by_cases hif : pic.picture_type = .IFrame
  · have hdisp : pic.picture_type.is_disposable = false := by
      rw [hif]; rfl
    simp [hif, hdisp, PictureTypeCode.is_disposable]
  · by_cases hdisp : pic.picture_type.is_disposable
    · simp [hif, hdisp]
    · simp [hif, hdisp]

/-- C1: reference-map size invariant.  If the incoming state's
`reference_picture` key (when set) is present in the reference map, then
after any successful `decode_next_picture` the map holds at most two
entries, every entry is keyed by the current `last_picture` or
`reference_picture`, and whenever `last_picture` (resp.
`reference_picture`) is set, the map holds an entry under that key. -/
theorem c1_reference_map_invariant
    (parse : H263State → H263Reader → (Except H263Error DecodedPicture) × H263Reader)
    (s : H263State) (r : H263Reader) (s' : H263State) (r' : H263Reader)
    (hRef : ∀ tr, s.reference_picture = some tr → (map_get tr s.reference_states).isSome)
    (hok : decode_next_picture parse s r = (.ok (), s', r')) :
    s'.reference_states.length ≤ 2 ∧
    (∀ p ∈ s'.reference_states,
      some p.1 = s'.last_picture ∨ some p.1 = s'.reference_picture) ∧
    (∀ tr, s'.last_picture = some tr → (map_get tr s'.reference_states).isSome) ∧
    (∀ tr, s'.reference_picture = some tr → (map_get tr s'.reference_states).isSome) := by
  rcases hparse : parse s r with ⟨pres, rp⟩
  rcases pres with e | pic
  · exfalso
    simp only [decode_next_picture, with_transaction, hparse, reader_rollback] at hok
    split_ifs at hok <;> simp at hok
  · have hs' : s' = decode_picture_tail s pic := by
      simp only [decode_next_picture, with_transaction, hparse] at hok
      have h2 := congrArg (fun q => q.2.1) hok
      simpa using h2.symm
    subst hs'
    rw [decode_picture_tail_as_cleanup]
    apply cleanup_c1
    · intro tr htr
      have h' : pic.temporal_reference = tr := by simpa using htr
      subst h'
      rw [show (⟨s.decoder_options, some pic.temporal_reference,
        (if pic.picture_type.is_disposable then
          (if pic.picture_type = .IFrame then none else s.reference_picture)
        else some pic.temporal_reference),
        s.running_options,
        map_insert pic.temporal_reference pic s.reference_states⟩ : H263State).reference_states =
        map_insert pic.temporal_reference pic s.reference_states from rfl]
      rw [map_get_insert_self]
      rfl
    · intro tr htr
      have htr2 : (if pic.picture_type.is_disposable then
          (if pic.picture_type = .IFrame then none else s.reference_picture)
        else some pic.temporal_reference) = some tr := htr
      rw [show (⟨s.decoder_options, some pic.temporal_reference,
        (if pic.picture_type.is_disposable then
          (if pic.picture_type = .IFrame then none else s.reference_picture)
        else some pic.temporal_reference),
        s.running_options,
        map_insert pic.temporal_reference pic s.reference_states⟩ : H263State).reference_states =
        map_insert pic.temporal_reference pic s.reference_states from rfl]
      by_cases htt : tr = pic.temporal_reference
      · subst htt
        rw [map_get_insert_self]
        rfl
      · rw [map_get_insert_ne _ _ _ htt]
        apply hRef
        by_cases hdisp : pic.picture_type.is_disposable
        · rw [if_pos hdisp] at htr2
          by_cases hif : pic.picture_type = .IFrame
          · rw [if_pos hif] at htr2
            exact absurd htr2 (by simp)
          · rw [if_neg hif] at htr2
            exact htr2
        · rw [if_neg hdisp] at htr2
          exact absurd htr2 (fun h => htt (by simpa using h.symm))

/-- Witness for C1: a parse oracle producing an I-frame with temporal
reference 7, applied to a fresh decoder state and an empty reader. -/
theorem c1_reference_map_invariant_witness :
    (decode_picture_tail (H263State.new 0) ⟨7, .IFrame⟩).reference_states.length ≤ 2 ∧
    (∀ p ∈ (decode_picture_tail (H263State.new 0) ⟨7, .IFrame⟩).reference_states,
      some p.1 = (decode_picture_tail (H263State.new 0) ⟨7, .IFrame⟩).last_picture ∨
      some p.1 = (decode_picture_tail (H263State.new 0) ⟨7, .IFrame⟩).reference_picture) ∧
    (∀ tr, (decode_picture_tail (H263State.new 0) ⟨7, .IFrame⟩).last_picture = some tr →
      (map_get tr (decode_picture_tail (H263State.new 0) ⟨7, .IFrame⟩).reference_states).isSome) ∧
    (∀ tr, (decode_picture_tail (H263State.new 0) ⟨7, .IFrame⟩).reference_picture = some tr →
      (map_get tr (decode_picture_tail (H263State.new 0) ⟨7, .IFrame⟩).reference_states).isSome) :=
  c1_reference_map_invariant (fun _ r => (.ok ⟨7, .IFrame⟩, r)) (H263State.new 0)
    ⟨[], [], 0⟩ (decode_picture_tail (H263State.new 0) ⟨7, .IFrame⟩)
    (reader_commit ⟨[], [], 0⟩)
    (fun tr h => absurd h (by simp [H263State.new])) rfl

/-- C2: `get_reference_picture` looks the map up under the wrong key.  After
decoding a non-disposable I-frame with temporal reference 1 followed by a
disposable P-frame with temporal reference 2, `reference_picture` is
`Some 1` and the map holds the I-frame under key 1, yet
`get_reference_picture` returns the disposable picture stored under the
`last_picture` key 2 (state.rs guards on `reference_picture` but then reads
`self.reference_states.get(&self.last_picture.unwrap())`). -/
theorem c2_get_reference_picture_uses_last_key :
    (decode_picture_tail (decode_picture_tail (H263State.new 0) ⟨1, .IFrame⟩)
        ⟨2, .DisposablePFrame⟩).reference_picture = some 1 ∧
    (decode_picture_tail (decode_picture_tail (H263State.new 0) ⟨1, .IFrame⟩)
        ⟨2, .DisposablePFrame⟩).last_picture = some 2 ∧
    map_get 1 (decode_picture_tail (decode_picture_tail (H263State.new 0) ⟨1, .IFrame⟩)
        ⟨2, .DisposablePFrame⟩).reference_states = some ⟨1, .IFrame⟩ ∧
    get_reference_picture (decode_picture_tail (decode_picture_tail (H263State.new 0)
        ⟨1, .IFrame⟩) ⟨2, .DisposablePFrame⟩) = some ⟨2, .DisposablePFrame⟩ ∧
    (⟨2, .DisposablePFrame⟩ : DecodedPicture) ≠ ⟨1, .IFrame⟩ :=
  ⟨rfl, rfl, rfl, rfl, by decide⟩

/-- C3: error atomicity of `decode_next_picture`.  For any parsing phase
that never shrinks the reader's buffer (parsing only ever buffers more
bytes; `commit` runs solely on the success path), and any reader whose
cursor is within the buffered bits, an erroring `decode_next_picture`
leaves the decoder state exactly as it was - same reference map, same
`last_picture`, `reference_picture` and `running_options` - and the
enclosing `with_transaction` restores the reader's bit cursor to its
position at entry. -/
theorem c3_error_atomicity
    (parse : H263State → H263Reader → (Except H263Error DecodedPicture) × H263Reader)
    (s : H263State) (r : H263Reader) (e : H263Error)
    (hInv : r.bits_read ≤ 8 * r.buffer.length)
    (hMono : ∀ s0 r0, r0.buffer.length ≤ ((parse s0 r0).2).buffer.length)
    (s' : H263State) (r' : H263Reader)
    (herr : decode_next_picture parse s r = (.error e, s', r')) :
    s' = s ∧ r'.bits_read = r.bits_read ∧
    s'.reference_states = s.reference_states ∧
    s'.last_picture = s.last_picture ∧
    s'.reference_picture = s.reference_picture ∧
    s'.running_options = s.running_options := by
  rcases hparse : parse s r with ⟨pres, rp⟩
  rcases pres with e0 | pic
  · have hle : ¬ (8 * rp.buffer.length < r.bits_read) := by
      have hm := hMono s r
      rw [hparse] at hm
      simp only at hm
      omega
    simp only [decode_next_picture, with_transaction, hparse, reader_rollback,
      if_neg hle] at herr
    have hs : s = s' := congrArg (fun q => q.2.1) herr
    have hb : r.bits_read = r'.bits_read := congrArg (fun q => q.2.2.bits_read) herr
    subst hs
    exact ⟨rfl, hb.symm, rfl, rfl, rfl, rfl⟩
  · exfalso
    simp only [decode_next_picture, with_transaction, hparse] at herr
    have := congrArg (fun q => q.1) herr
    simp at this

/-- Witness for C3: a parse oracle that always fails with
`MiddleOfBitstream`, applied to a fresh state and a one-byte reader. -/
theorem c3_error_atomicity_witness :
    H263State.new 0 = H263State.new 0 ∧
    (H263Reader.mk [0] [] 0).bits_read = (H263Reader.mk [0] [] 0).bits_read ∧
    (H263State.new 0).reference_states = (H263State.new 0).reference_states ∧
    (H263State.new 0).last_picture = (H263State.new 0).last_picture ∧
    (H263State.new 0).reference_picture = (H263State.new 0).reference_picture ∧
    (H263State.new 0).running_options = (H263State.new 0).running_options :=
  c3_error_atomicity (fun _ r => (.error .MiddleOfBitstream, r)) (H263State.new 0)
    (H263Reader.mk [0] [] 0) .MiddleOfBitstream (by norm_num)
    (fun _ _ => le_refl _) (H263State.new 0) (H263Reader.mk [0] [] 0) rfl

/-! ## BT.601 YUV to RGBA converter (src/yuv/src/bt601.rs)

The look-up tables of bt601.rs are computed with IEEE-754 binary32 (`f32`)
arithmetic.  Every `f32` operation is modelled exactly: values are dyadic
rationals, and each operation rounds its exact rational result to 24
significand bits with round-to-nearest, ties-to-even (no value in these
computations comes near the subnormal or overflow ranges). -/

/-- Exact rational values as integer fractions with positive denominator
(kept unreduced; all operations preserve a positive denominator).  Plain
`Rat` is avoided because its normalising operations do not reduce inside
the kernel. -/
structure Frac where
  num : Int
  den : Nat
deriving DecidableEq

/-- Embed an integer. -/
def fofInt (n : Int) : Frac := ⟨n, 1⟩

/-- Exact subtraction of fractions. -/
def fsub (a b : Frac) : Frac := ⟨a.num * b.den - b.num * a.den, a.den * b.den⟩

/-- Exact multiplication of fractions. -/
def fmul (a b : Frac) : Frac := ⟨a.num * b.num, a.den * b.den⟩

/-- Exact division of fractions. -/
def fdivF (a b : Frac) : Frac :=
  if b.num < 0 then ⟨-(a.num * b.den), a.den * (-b.num).toNat⟩
  else ⟨a.num * b.den, a.den * b.num.toNat⟩

/-- Comparison of fractions (denominators positive). -/
def fle (a b : Frac) : Bool := a.num * b.den ≤ b.num * a.den

/-- Powers of two as fractions, for exponents of either sign. -/
def fpow2 (e : Int) : Frac :=
  if 0 ≤ e then ⟨((2 ^ e.toNat : Nat) : Int), 1⟩ else ⟨1, 2 ^ (-e).toNat⟩

/-- The binary exponent of a positive fraction: the largest e in [-64, 64]
with 2^e ≤ a (all magnitudes in the embedded computation lie well inside
that range). -/
def flExp (a : Frac) : Int :=
  (List.range 129).foldl (fun acc i =>
    let e : Int := (i : Int) - 64
    if fle (fpow2 e) a then e else acc) (-64)

/-- Round a nonnegative fraction to the nearest natural, ties to even. -/
def rne (m : Frac) : Nat :=
  let nn := m.num.toNat
  let f := nn / m.den
  let r2 := 2 * (nn - f * m.den)
  if r2 < m.den then f
  else if m.den < r2 then f + 1
  else if f % 2 = 0 then f else f + 1

/-- Round a fraction to the nearest `f32` value (24-bit significand,
round-to-nearest-even), as an exact fraction. -/
def fround (q : Frac) : Frac :=
  if q.num = 0 then ⟨0, 1⟩
  else
    let a : Frac := ⟨(q.num.natAbs : Int), q.den⟩
    let e := flExp a
    let n := rne (fmul a (fpow2 (23 - e)))
    let mag : Frac :=
      if 0 ≤ e - 23 then ⟨(n : Int) * ((2 ^ (e - 23).toNat : Nat) : Int), 1⟩
      else ⟨(n : Int), 2 ^ (23 - e).toNat⟩
    if q.num < 0 then ⟨-mag.num, mag.den⟩ else mag

/-- Rust `f32::round`: round half away from zero, yielding an integer. -/
def roundAway (q : Frac) : Int :=
  if 0 ≤ q.num then ((2 * q.num.toNat + q.den) / (2 * q.den) : Nat)
  else -(((2 * (-q.num).toNat + q.den) / (2 * q.den) : Nat) : Int)

/-- `remap_luma` from `LUTs::new` in bt601.rs:
`((luma - 16.0) * (255.0 / (235.0 - 16.0)) * 16.0).round() as i16`, with
every f32 operation rounded. -/
def remap_luma (luma : Frac) : Int :=
  roundAway (fround (fmul
    (fround (fmul (fround (fsub luma (fofInt 16)))
      (fround (fdivF (fofInt 255) (fround (fsub (fofInt 235) (fofInt 16)))))))
    (fofInt 16)))

/-- `remap_chroma` from `LUTs::new` in bt601.rs:
`(((chroma - 16.0) * (255.0 / (240.0 - 16.0)) - 128.0) * coeff * 16.0).round() as i16`;
the coefficient literal is itself rounded to f32. -/
def remap_chroma (chroma coeff : Frac) : Int :=
  roundAway (fround (fmul
    (fround (fmul
      (fround (fsub
        (fround (fmul (fround (fsub chroma (fofInt 16)))
          (fround (fdivF (fofInt 255) (fround (fsub (fofInt 240) (fofInt 16)))))))
        (fofInt 128)))
      (fround coeff)))
    (fofInt 16)))

/-- The `y_to_gray` table of `LUTs::new`. -/
def lut_y_to_gray (i : Nat) : Int := remap_luma (fofInt i)

/-- The `cr_to_r` table of `LUTs::new` (coefficient 1.370705). -/
def lut_cr_to_r (i : Nat) : Int := remap_chroma (fofInt i) ⟨1370705, 1000000⟩

/-- The `cr_to_g` table of `LUTs::new` (coefficient -0.698001). -/
def lut_cr_to_g (i : Nat) : Int := remap_chroma (fofInt i) ⟨-698001, 1000000⟩

/-- The `cb_to_g` table of `LUTs::new` (coefficient -0.337633). -/
def lut_cb_to_g (i : Nat) : Int := remap_chroma (fofInt i) ⟨-337633, 1000000⟩

/-- The `cb_to_b` table of `LUTs::new` (coefficient 1.732446). -/
def lut_cb_to_b (i : Nat) : Int := remap_chroma (fofInt i) ⟨1732446, 1000000⟩

example : lut_y_to_gray 16 = 0 := by decide
example : lut_y_to_gray 235 = 4080 := by decide
example : lut_cr_to_r 128 = -11 := by decide
example : lut_cr_to_g 128 = 6 := by decide
example : lut_cb_to_g 128 = 3 := by decide
example : lut_cb_to_b 128 = -14 := by decide

/-- `yuv_to_rgb` from bt601.rs: table lookups in signed 12.4 fixed point,
rounding additions of 8 and arithmetic shifts right by 4 (`Int.fdiv` by 16),
then clamping to the byte range. -/
def yuv_to_rgb (y cb cr : Nat) : Nat × Nat × Nat :=
  let gray := lut_y_to_gray y
  let r := Int.fdiv (gray + lut_cr_to_r cr + 8) 16
  let g := Int.fdiv (gray + lut_cr_to_g cr + lut_cb_to_g cb + 8) 16
  let b := Int.fdiv (gray + lut_cb_to_b cb + 8) 16
  ((rustClamp r 0 255).toNat, (rustClamp g 0 255).toNat, (rustClamp b 0 255).toNat)

example : yuv_to_rgb 16 128 128 = (0, 1, 0) := by decide
example : yuv_to_rgb 235 128 128 = (254, 255, 254) := by decide

/-- `lerp_chroma` from bt601.rs: fixed t=0.25 interpolation of the chroma
components with rounding; the luma of `a` passes through. -/
def lerp_chroma (a b : Nat × Nat × Nat) : Nat × Nat × Nat :=
  (a.1, (a.2.1 + a.2.1 + a.2.1 + b.2.1 + 2) / 4, (a.2.2 + a.2.2 + a.2.2 + b.2.2 + 2) / 4)

/-- `bilerp_chroma_step1` from bt601.rs: the unrounded 14.2 fixed-point
horizontal interpolation step. -/
def bilerp_chroma_step1 (a b : Nat × Nat × Nat) : Nat × Nat × Nat :=
  (a.1, a.2.1 + a.2.1 + a.2.1 + b.2.1, a.2.2 + a.2.2 + a.2.2 + b.2.2)

/-- `bilerp_chroma_step2` from bt601.rs: the vertical interpolation step with
the rounding division by 16. -/
def bilerp_chroma_step2 (a b : Nat × Nat × Nat) : Nat × Nat × Nat :=
  (a.1, (a.2.1 + a.2.1 + a.2.1 + b.2.1 + 8) / 16, (a.2.2 + a.2.2 + a.2.2 + b.2.2 + 8) / 16)

/-- The four RGBA bytes written for one converted pixel (alpha fixed 255). -/
def rgbaQuad (c : Nat × Nat × Nat) : List Nat := [c.1, c.2.1, c.2.2, 255]

/-- `copy_from_slice` into the RGBA buffer at an absolute byte offset. -/
def write_seg (a : List Nat) (start : Nat) (vals : List Nat) : List Nat :=
  a.take start ++ vals ++ a.drop (start + vals.length)

/-- One iteration of the inner 2x2-bunch loop of `yuv420_to_rgba`: read the
2x2 luma samples enclosed by the 2x2 chroma samples around chroma column j,
bilinearly interpolate the chroma to the luma sites, convert, and write the
two 8-byte RGBA segments of the upper and lower rows. -/
def main_bunch (yp cb cr : List Nat) (W BW : Nat) (crow : Nat)
    (a : List Nat) (j : Nat) : List Nat :=
  let lr := 2 * crow + 1
  let topleft := (yp.getD (lr * W + 1 + 2 * j) 0,
    cb.getD (crow * BW + j) 0, cr.getD (crow * BW + j) 0)
  let topright := (yp.getD (lr * W + 1 + 2 * j + 1) 0,
    cb.getD (crow * BW + j + 1) 0, cr.getD (crow * BW + j + 1) 0)
  let bottomleft := (yp.getD ((lr + 1) * W + 1 + 2 * j) 0,
    cb.getD ((crow + 1) * BW + j) 0, cr.getD ((crow + 1) * BW + j) 0)
  let bottomright := (yp.getD ((lr + 1) * W + 1 + 2 * j + 1) 0,
    cb.getD ((crow + 1) * BW + j + 1) 0, cr.getD ((crow + 1) * BW + j + 1) 0)
  let tli := bilerp_chroma_step1 topleft topright
  let tri := bilerp_chroma_step1 topright topleft
  let bli := bilerp_chroma_step1 bottomleft bottomright
  let bri := bilerp_chroma_step1 bottomright bottomleft
  let tlf := bilerp_chroma_step2 tli bli
  let blf := bilerp_chroma_step2 bli tli
  let trf := bilerp_chroma_step2 tri bri
  let brf := bilerp_chroma_step2 bri tri
  let a1 := write_seg a (lr * (4 * W) + 4 + 8 * j)
    (rgbaQuad (yuv_to_rgb tlf.1 tlf.2.1 tlf.2.2) ++ rgbaQuad (yuv_to_rgb trf.1 trf.2.1 trf.2.2))
  write_seg a1 ((lr + 1) * (4 * W) + 4 + 8 * j)
    (rgbaQuad (yuv_to_rgb blf.1 blf.2.1 blf.2.2) ++ rgbaQuad (yuv_to_rgb brf.1 brf.2.1 brf.2.2))

/-- One chroma row of the main loop of `yuv420_to_rgba`. -/
def main_row (yp cb cr : List Nat) (W BW : Nat) (a : List Nat) (crow : Nat) : List Nat :=
  (List.range (BW - 1)).foldl (main_bunch yp cb cr W BW crow) a

/-- The main loop of `yuv420_to_rgba` over all adjacent chroma row pairs. -/
def main_pass (yp cb cr : List Nat) (W BW BH : Nat) (a : List Nat) : List Nat :=
  (List.range (BH - 1)).foldl (main_row yp cb cr W BW) a

/-- One iteration of the loop of `process_edge_row`. -/
def edge_row_bunch (yp cb cr : List Nat) (W BW : Nat) (row : Nat)
    (a : List Nat) (j : Nat) : List Nat :=
  let y_from := row * W + 1
  let br_from := row / 2 * BW
  let left := (yp.getD (y_from + 2 * j) 0, cb.getD (br_from + j) 0, cr.getD (br_from + j) 0)
  let right := (yp.getD (y_from + 2 * j + 1) 0,
    cb.getD (br_from + j + 1) 0, cr.getD (br_from + j + 1) 0)
  let lv := lerp_chroma left right
  let rv := lerp_chroma right left
  write_seg a (y_from * 4 + 8 * j)
    (rgbaQuad (yuv_to_rgb lv.1 lv.2.1 lv.2.2) ++ rgbaQuad (yuv_to_rgb rv.1 rv.2.1 rv.2.2))

/-- `process_edge_row` from bt601.rs (row 0 or the bottom row of an
even-height picture): horizontal-only chroma interpolation. -/
def process_edge_row (yp cb cr : List Nat) (W BW : Nat) (a : List Nat) (row : Nat) :
    List Nat :=
  (List.range (BW - 1)).foldl (edge_row_bunch yp cb cr W BW row) a

/-- One iteration of the loop of `process_edge_col`. -/
def edge_col_bunch (yp cb cr : List Nat) (W BW : Nat) (col : Nat)
    (a : List Nat) (br_y : Nat) : List Nat :=
  let br_col := col / 2
  let y_top_y := 2 * br_y + 1
  let top := (yp.getD (y_top_y * W + col) 0,
    cb.getD (br_y * BW + br_col) 0, cr.getD (br_y * BW + br_col) 0)
  let bottom := (yp.getD ((y_top_y + 1) * W + col) 0,
    cb.getD ((br_y + 1) * BW + br_col) 0, cr.getD ((br_y + 1) * BW + br_col) 0)
  let tv := lerp_chroma top bottom
  let bv := lerp_chroma bottom top
  let a1 := write_seg a ((y_top_y * W + col) * 4) (rgbaQuad (yuv_to_rgb tv.1 tv.2.1 tv.2.2))
  write_seg a1 (((y_top_y + 1) * W + col) * 4) (rgbaQuad (yuv_to_rgb bv.1 bv.2.1 bv.2.2))

/-- `process_edge_col` from bt601.rs (column 0 or the right column of an
even-width picture): the uninterpolated top pixel, vertical-only chroma
interpolation between chroma row pairs, and the uninterpolated bottom pixel
of an even-height picture. -/
def process_edge_col (yp cb cr : List Nat) (W BW : Nat) (a : List Nat) (col : Nat) :
    List Nat :=
  let H := yp.length / W
  let BH := cb.length / BW
  let br_col := col / 2
  let top := yuv_to_rgb (yp.getD col 0) (cb.getD br_col 0) (cr.getD br_col 0)
  let a1 := write_seg a (col * 4) (rgbaQuad top)
  let a2 := (List.range (BH - 1)).foldl (edge_col_bunch yp cb cr W BW col) a1
  if H % 2 = 0 then
    let y_index := (H - 1) * W + col
    let br_index := (BH - 1) * BW + br_col
    write_seg a2 (y_index * 4)
      (rgbaQuad (yuv_to_rgb (yp.getD y_index 0) (cb.getD br_index 0) (cr.getD br_index 0)))
  else a2

/-- `yuv420_to_rgba` from bt601.rs: the interior bilinear pass, then the top
edge row, the bottom edge row of an even-height picture, the left edge
column, and the right edge column of an even-width picture. -/
def yuv420_to_rgba (yp cb cr : List Nat) (W BW : Nat) : List Nat :=
  if yp.isEmpty then []
  else
    let H := yp.length / W
    let BH := cb.length / BW
    let a0 := List.replicate (yp.length * 4) 0
    let a1 := main_pass yp cb cr W BW BH a0
    let a2 := process_edge_row yp cb cr W BW a1 0
    let a3 := if H % 2 = 0 then process_edge_row yp cb cr W BW a2 (H - 1) else a2
    let a4 := process_edge_col yp cb cr W BW a3 0
    if W % 2 = 0 then process_edge_col yp cb cr W BW a4 (W - 1) else a4

example : yuv420_to_rgba [16] [128] [128] 1 1 = [0, 1, 0, 255] := by decide
example : yuv420_to_rgba [235] [128] [128] 1 1 = [254, 255, 254, 255] := by decide
example : yuv420_to_rgba [16, 16, 16, 16] [128] [128] 2 1 =
    [0, 1, 0, 255, 0, 1, 0, 255, 0, 1, 0, 255, 0, 1, 0, 255] := by decide

/-! Machinery for reasoning about the converter's buffer writes. -/

theorem replicate_getD (n v i : Nat) (h : i < n) :
    (List.replicate n v).getD i 0 = v := by
  rw [List.getD_eq_getElem?_getD, List.getElem?_replicate_of_lt h]
  rfl

theorem write_seg_length (a : List Nat) (start : Nat) (vals : List Nat)
    (h : start + vals.length ≤ a.length) :
    (write_seg a start vals).length = a.length := by
  simp only [write_seg, List.length_append, List.length_take, List.length_drop]
  omega

theorem write_seg_getD (a : List Nat) (start : Nat) (vals : List Nat) (i : Nat)
    (h : start + vals.length ≤ a.length) :
    (write_seg a start vals).getD i 0 =
      if start ≤ i ∧ i < start + vals.length then vals.getD (i - start) 0
      else a.getD i 0 := by
  have hts : (a.take start).length = start := by
    rw [List.length_take]; omega
  have htv : (a.take start ++ vals).length = start + vals.length := by
    rw [List.length_append, hts]
  rcases Nat.lt_or_ge i start with hlt | hge
  · rw [if_neg (by omega)]
    rw [List.getD_eq_getElem?_getD, List.getD_eq_getElem?_getD, write_seg,
      List.getElem?_append_left (by rw [htv]; omega),
      List.getElem?_append_left (by rw [hts]; exact hlt),
      List.getElem?_take_of_lt hlt]
  · rcases Nat.lt_or_ge i (start + vals.length) with hin | hout
    · rw [if_pos ⟨hge, hin⟩]
      rw [List.getD_eq_getElem?_getD, List.getD_eq_getElem?_getD, write_seg,
        List.getElem?_append_left (by rw [htv]; omega),
        List.getElem?_append_right (by rw [hts]; exact hge), hts]
    · rw [if_neg (by omega)]
      have hidx : start + vals.length + (i - (start + vals.length)) = i := by omega
      rw [List.getD_eq_getElem?_getD, List.getD_eq_getElem?_getD, write_seg,
        List.getElem?_append_right (by rw [htv]; omega), htv,
        List.getElem?_drop, hidx]

theorem foldl_write_len {f : List Nat → Nat → List Nat} {N : Nat} :
    ∀ (idxs : List Nat),
    (∀ a j, j ∈ idxs → a.length = N → (f a j).length = N) →
    ∀ a, a.length = N → (idxs.foldl f a).length = N := by
  intro idxs
  induction idxs with
  | nil => intro _ a ha; exact ha
  | cons hd tl ih =>
    intro hstep a ha
    exact ih (fun a j hj => hstep a j (List.mem_cons_of_mem _ hj)) (f a hd)
      (hstep a hd (List.mem_cons_self _ _) ha)

theorem foldl_write_preserve {f : List Nat → Nat → List Nat} {N : Nat} {w : Nat → Nat} :
    ∀ (idxs : List Nat),
    (∀ a j, j ∈ idxs → a.length = N → (f a j).length = N) →
    (∀ a j, j ∈ idxs → a.length = N →
      ∀ i, (f a j).getD i 0 = a.getD i 0 ∨ (f a j).getD i 0 = w i) →
    ∀ a, a.length = N →
    ∀ i, (idxs.foldl f a).getD i 0 = a.getD i 0 ∨ (idxs.foldl f a).getD i 0 = w i := by
  intro idxs
  induction idxs with
  | nil => intro _ _ a _ i; left; rfl
  | cons hd tl ih =>
    intro hlen hstep a ha i
    have h1 := hstep a hd (List.mem_cons_self _ _) ha i
    have hfl : (f a hd).length = N := hlen a hd (List.mem_cons_self _ _) ha
    have h2 := ih (fun a j hj => hlen a j (List.mem_cons_of_mem _ hj))
      (fun a j hj => hstep a j (List.mem_cons_of_mem _ hj)) (f a hd) hfl i
    have hfold : List.foldl f a (hd :: tl) = tl.foldl f (f a hd) := rfl
    rw [hfold]
    rcases h2 with h2 | h2
    · rw [h2]
      exact h1
    · right
      exact h2

theorem foldl_write_keep {f : List Nat → Nat → List Nat} {N : Nat} {w : Nat → Nat}
    (idxs : List Nat)
    (hlen : ∀ a j, j ∈ idxs → a.length = N → (f a j).length = N)
    (hstep : ∀ a j, j ∈ idxs → a.length = N →
      ∀ i, (f a j).getD i 0 = a.getD i 0 ∨ (f a j).getD i 0 = w i)
    (a : List Nat) (ha : a.length = N) (i : Nat) (hai : a.getD i 0 = w i) :
    (idxs.foldl f a).getD i 0 = w i := by
  rcases foldl_write_preserve idxs hlen hstep a ha i with h | h
  · rw [h, hai]
  · exact h

theorem foldl_write_cover {f : List Nat → Nat → List Nat} {N : Nat} {w : Nat → Nat} :
    ∀ (idxs : List Nat),
    (∀ a j, j ∈ idxs → a.length = N → (f a j).length = N) →
    (∀ a j, j ∈ idxs → a.length = N →
      ∀ i, (f a j).getD i 0 = a.getD i 0 ∨ (f a j).getD i 0 = w i) →
    ∀ (j : Nat), j ∈ idxs →
    ∀ (i : Nat), (∀ a, a.length = N → (f a j).getD i 0 = w i) →
    ∀ a, a.length = N → (idxs.foldl f a).getD i 0 = w i := by
  intro idxs
  induction idxs with
  | nil => intro _ _ j hj; exact absurd hj (by simp)
  | cons hd tl ih =>
    intro hlen hstep j hjmem i hj a ha
    have hlen' := fun a j hj => hlen a j (List.mem_cons_of_mem _ hj)
    have hstep' := fun a j hj => hstep a j (List.mem_cons_of_mem _ hj)
    have hahd : (f a hd).length = N := hlen a hd (List.mem_cons_self _ _) ha
    rcases List.mem_cons.1 hjmem with rfl | hjtl
    · show (tl.foldl f (f a j)).getD i 0 = w i
      exact foldl_write_keep tl hlen' hstep' (f a j) hahd i (hj a ha)
    · exact ih hlen' hstep' j hjtl i hj (f a hd) hahd

/-- Row-major pixel index bound. -/
theorem idx_lt (row col W H : Nat) (hrow : row < H) (hcol : col < W) :
    row * W + col < W * H := by
  calc row * W + col < row * W + W := Nat.add_lt_add_left hcol _
    _ = (row + 1) * W := by ring
    _ ≤ H * W := Nat.mul_le_mul_right W hrow
    _ = W * H := Nat.mul_comm H W

/-- Byte-offset bound for a row-relative segment. -/
theorem seg_le (row e W H : Nat) (hrow : row < H) (he : e ≤ 4 * W) :
    row * (4 * W) + e ≤ 4 * (W * H) := by
  calc row * (4 * W) + e ≤ row * (4 * W) + 4 * W := Nat.add_le_add_left he _
    _ = (row + 1) * (4 * W) := by ring
    _ ≤ H * (4 * W) := Nat.mul_le_mul_right _ hrow
    _ = 4 * (W * H) := by ring

/-- The repeating output byte pattern of a uniformly coloured picture. -/
def patW (c : Nat × Nat × Nat) (i : Nat) : Nat := (rgbaQuad c).getD (i % 4) 0

theorem quad2_getD_pat (c : Nat × Nat × Nat) (pix i : Nat)
    (h1 : 4 * pix ≤ i) (h2 : i < 4 * pix + 8) :
    (rgbaQuad c ++ rgbaQuad c).getD (i - 4 * pix) 0 = patW c i := by
  have hk : i - 4 * pix < 8 := by omega
  have hmod : (i - 4 * pix) % 4 = i % 4 := by omega
  have hq : ∀ k, k < 8 → (rgbaQuad c ++ rgbaQuad c).getD k 0 = (rgbaQuad c).getD (k % 4) 0 := by
    intro k hk8
    interval_cases k <;> rfl
  rw [hq _ hk, hmod]
  rfl

theorem quad_getD_pat (c : Nat × Nat × Nat) (pix i : Nat)
    (h1 : 4 * pix ≤ i) (h2 : i < 4 * pix + 4) :
    (rgbaQuad c).getD (i - 4 * pix) 0 = patW c i := by
  have hmod : i - 4 * pix = i % 4 := by omega
  rw [hmod]
  rfl

/-- The 8-byte segment written for two adjacent pixels of a uniformly
coloured picture. -/
def quad2 (v : Nat) : List Nat :=
  rgbaQuad (yuv_to_rgb v 128 128) ++ rgbaQuad (yuv_to_rgb v 128 128)

/-- Bilinearly interpolating neutral chroma is neutral, so the converted
pixel of a uniform bunch is the uniform colour. -/
theorem bilerp_yuv_uniform (v v2 v3 v4 : Nat) :
    yuv_to_rgb (bilerp_chroma_step2 (bilerp_chroma_step1 (v, 128, 128) (v2, 128, 128))
        (bilerp_chroma_step1 (v3, 128, 128) (v4, 128, 128))).1
      (bilerp_chroma_step2 (bilerp_chroma_step1 (v, 128, 128) (v2, 128, 128))
        (bilerp_chroma_step1 (v3, 128, 128) (v4, 128, 128))).2.1
      (bilerp_chroma_step2 (bilerp_chroma_step1 (v, 128, 128) (v2, 128, 128))
        (bilerp_chroma_step1 (v3, 128, 128) (v4, 128, 128))).2.2
    = yuv_to_rgb v 128 128 := by
  have h : bilerp_chroma_step2 (bilerp_chroma_step1 (v, 128, 128) (v2, 128, 128))
      (bilerp_chroma_step1 (v3, 128, 128) (v4, 128, 128)) = (v, 128, 128) := by
    unfold bilerp_chroma_step1 bilerp_chroma_step2
    norm_num
  rw [h]

/-- On a uniform picture (luma v everywhere, both chroma planes 128), one
main-loop bunch is exactly two aligned 8-byte pattern writes at the upper
and lower row offsets. -/
theorem main_bunch_eq (v W H BW BH : Nat)
    (hBW : W = 2 * BW ∨ W + 1 = 2 * BW) (hBH : H = 2 * BH ∨ H + 1 = 2 * BH)
    (crow : Nat) (hcrow : crow < BH - 1) (j : Nat) (hj : j < BW - 1)
    (a : List Nat) :
    main_bunch (List.replicate (W * H) v) (List.replicate (BW * BH) 128)
        (List.replicate (BW * BH) 128) W BW crow a j =
      write_seg (write_seg a (4 * ((2 * crow + 1) * W + 1 + 2 * j)) (quad2 v))
        (4 * ((2 * crow + 2) * W + 1 + 2 * j)) (quad2 v) := by
  have hy1 : (2 * crow + 1) * W + 1 + 2 * j < W * H := by
    have h := idx_lt (2 * crow + 1) (1 + 2 * j) W H (by omega) (by omega)
    omega
  have hy2 : (2 * crow + 1) * W + 1 + 2 * j + 1 < W * H := by
    have h := idx_lt (2 * crow + 1) (1 + 2 * j + 1) W H (by omega) (by omega)
    omega
  have hy3 : (2 * crow + 1 + 1) * W + 1 + 2 * j < W * H := by
    have h := idx_lt (2 * crow + 1 + 1) (1 + 2 * j) W H (by omega) (by omega)
    omega
  have hy4 : (2 * crow + 1 + 1) * W + 1 + 2 * j + 1 < W * H := by
    have h := idx_lt (2 * crow + 1 + 1) (1 + 2 * j + 1) W H (by omega) (by omega)
    omega
  have hc1 : crow * BW + j < BW * BH := by
    have h := idx_lt crow j BW BH (by omega) (by omega)
    omega
  have hc2 : crow * BW + j + 1 < BW * BH := by
    have h := idx_lt crow (j + 1) BW BH (by omega) (by omega)
    omega
  have hc3 : (crow + 1) * BW + j < BW * BH := by
    have h := idx_lt (crow + 1) j BW BH (by omega) (by omega)
    omega
  have hc4 : (crow + 1) * BW + j + 1 < BW * BH := by
    have h := idx_lt (crow + 1) (j + 1) BW BH (by omega) (by omega)
    omega
  have ho1 : (2 * crow + 1) * (4 * W) + 4 + 8 * j =
      4 * ((2 * crow + 1) * W + 1 + 2 * j) := by ring
  have ho2 : (2 * crow + 1 + 1) * (4 * W) + 4 + 8 * j =
      4 * ((2 * crow + 2) * W + 1 + 2 * j) := by ring
  simp only [main_bunch]
  rw [replicate_getD _ _ _ hy1, replicate_getD _ _ _ hy2, replicate_getD _ _ _ hy3,
    replicate_getD _ _ _ hy4, replicate_getD _ _ _ hc1, replicate_getD _ _ _ hc2,
    replicate_getD _ _ _ hc3, replicate_getD _ _ _ hc4, ho1, ho2,
    bilerp_yuv_uniform]
  have hq : quad2 v = rgbaQuad (yuv_to_rgb v 128 128) ++ rgbaQuad (yuv_to_rgb v 128 128) := rfl
  rw [hq]

/-- Linearly interpolating neutral chroma is neutral, so the converted pixel
of a uniform edge pair is the uniform colour. -/
theorem lerp_yuv_uniform (v v2 : Nat) :
    yuv_to_rgb (lerp_chroma (v, 128, 128) (v2, 128, 128)).1
      (lerp_chroma (v, 128, 128) (v2, 128, 128)).2.1
      (lerp_chroma (v, 128, 128) (v2, 128, 128)).2.2
    = yuv_to_rgb v 128 128 := by
  have h : lerp_chroma (v, 128, 128) (v2, 128, 128) = (v, 128, 128) := by
    unfold lerp_chroma
    norm_num
  rw [h]

/-- Each uniform main-loop bunch preserves the RGBA buffer length. -/
theorem main_bunch_len (v W H BW BH : Nat)
    (hBW : W = 2 * BW ∨ W + 1 = 2 * BW) (hBH : H = 2 * BH ∨ H + 1 = 2 * BH)
    (crow : Nat) (hcrow : crow < BH - 1) (j : Nat) (hj : j < BW - 1)
    (a : List Nat) (ha : a.length = 4 * (W * H)) :
    (main_bunch (List.replicate (W * H) v) (List.replicate (BW * BH) 128)
      (List.replicate (BW * BH) 128) W BW crow a j).length = 4 * (W * H) := by
  have hq8 : (quad2 v).length = 8 := rfl
  have hs1 : 4 * ((2 * crow + 1) * W + 1 + 2 * j) + 8 ≤ 4 * (W * H) := by
    have h := seg_le (2 * crow + 1) (4 + 8 * j + 8) W H (by omega) (by omega)
    have he : (2 * crow + 1) * (4 * W) + (4 + 8 * j + 8)
        = 4 * ((2 * crow + 1) * W + 1 + 2 * j) + 8 := by ring
    omega
  have hs2 : 4 * ((2 * crow + 2) * W + 1 + 2 * j) + 8 ≤ 4 * (W * H) := by
    have h := seg_le (2 * crow + 2) (4 + 8 * j + 8) W H (by omega) (by omega)
    have he : (2 * crow + 2) * (4 * W) + (4 + 8 * j + 8)
        = 4 * ((2 * crow + 2) * W + 1 + 2 * j) + 8 := by ring
    omega
  rw [main_bunch_eq v W H BW BH hBW hBH crow hcrow j hj a]
  have hin : (write_seg a (4 * ((2 * crow + 1) * W + 1 + 2 * j)) (quad2 v)).length
      = a.length := write_seg_length _ _ _ (by rw [hq8, ha]; exact hs1)
  rw [write_seg_length _ _ _ (by rw [hq8, hin, ha]; exact hs2), hin, ha]

/-- Each uniform main-loop bunch either preserves a byte or writes the
uniform pattern byte. -/
theorem main_bunch_opt (v W H BW BH : Nat)
    (hBW : W = 2 * BW ∨ W + 1 = 2 * BW) (hBH : H = 2 * BH ∨ H + 1 = 2 * BH)
    (crow : Nat) (hcrow : crow < BH - 1) (j : Nat) (hj : j < BW - 1)
    (a : List Nat) (ha : a.length = 4 * (W * H)) (i : Nat) :
    (main_bunch (List.replicate (W * H) v) (List.replicate (BW * BH) 128)
        (List.replicate (BW * BH) 128) W BW crow a j).getD i 0 = a.getD i 0 ∨
      (main_bunch (List.replicate (W * H) v) (List.replicate (BW * BH) 128)
        (List.replicate (BW * BH) 128) W BW crow a j).getD i 0
        = patW (yuv_to_rgb v 128 128) i := by
  have hq8 : (quad2 v).length = 8 := rfl
  have hs1 : 4 * ((2 * crow + 1) * W + 1 + 2 * j) + 8 ≤ 4 * (W * H) := by
    have h := seg_le (2 * crow + 1) (4 + 8 * j + 8) W H (by omega) (by omega)
    have he : (2 * crow + 1) * (4 * W) + (4 + 8 * j + 8)
        = 4 * ((2 * crow + 1) * W + 1 + 2 * j) + 8 := by ring
    omega
  have hs2 : 4 * ((2 * crow + 2) * W + 1 + 2 * j) + 8 ≤ 4 * (W * H) := by
    have h := seg_le (2 * crow + 2) (4 + 8 * j + 8) W H (by omega) (by omega)
    have he : (2 * crow + 2) * (4 * W) + (4 + 8 * j + 8)
        = 4 * ((2 * crow + 2) * W + 1 + 2 * j) + 8 := by ring
    omega
  have hin : (write_seg a (4 * ((2 * crow + 1) * W + 1 + 2 * j)) (quad2 v)).length
      = a.length := write_seg_length _ _ _ (by rw [hq8, ha]; exact hs1)
  rw [main_bunch_eq v W H BW BH hBW hBH crow hcrow j hj a]
  rw [write_seg_getD _ _ _ i (by rw [hq8, hin, ha]; exact hs2)]
  by_cases h2 : 4 * ((2 * crow + 2) * W + 1 + 2 * j) ≤ i ∧
      i < 4 * ((2 * crow + 2) * W + 1 + 2 * j) + (quad2 v).length
  · rw [if_pos h2]
    right
    rw [hq8] at h2
    exact quad2_getD_pat (yuv_to_rgb v 128 128) ((2 * crow + 2) * W + 1 + 2 * j) i h2.1
      (by omega)
  · rw [if_neg h2]
    rw [write_seg_getD _ _ _ i (by rw [hq8, ha]; exact hs1)]
    by_cases h1 : 4 * ((2 * crow + 1) * W + 1 + 2 * j) ≤ i ∧
        i < 4 * ((2 * crow + 1) * W + 1 + 2 * j) + (quad2 v).length
    · rw [if_pos h1]
      right
      rw [hq8] at h1
      exact quad2_getD_pat (yuv_to_rgb v 128 128) ((2 * crow + 1) * W + 1 + 2 * j) i h1.1
        (by omega)
    · rw [if_neg h1]
      left
      rfl

/-- A uniform main-loop bunch writes the pattern bytes of each of its four
pixels. -/
theorem main_bunch_cover (v W H BW BH : Nat)
    (hBW : W = 2 * BW ∨ W + 1 = 2 * BW) (hBH : H = 2 * BH ∨ H + 1 = 2 * BH)
    (crow : Nat) (hcrow : crow < BH - 1) (j : Nat) (hj : j < BW - 1)
    (x y i : Nat) (hx : x = 1 + 2 * j ∨ x = 2 + 2 * j)
    (hy : y = 2 * crow + 1 ∨ y = 2 * crow + 2)
    (hi1 : 4 * (y * W + x) ≤ i) (hi2 : i < 4 * (y * W + x) + 4)
    (a : List Nat) (ha : a.length = 4 * (W * H)) :
    (main_bunch (List.replicate (W * H) v) (List.replicate (BW * BH) 128)
      (List.replicate (BW * BH) 128) W BW crow a j).getD i 0
      = patW (yuv_to_rgb v 128 128) i := by
  have hq8 : (quad2 v).length = 8 := rfl
  have hs1 : 4 * ((2 * crow + 1) * W + 1 + 2 * j) + 8 ≤ 4 * (W * H) := by
    have h := seg_le (2 * crow + 1) (4 + 8 * j + 8) W H (by omega) (by omega)
    have he : (2 * crow + 1) * (4 * W) + (4 + 8 * j + 8)
        = 4 * ((2 * crow + 1) * W + 1 + 2 * j) + 8 := by ring
    omega
  have hs2 : 4 * ((2 * crow + 2) * W + 1 + 2 * j) + 8 ≤ 4 * (W * H) := by
    have h := seg_le (2 * crow + 2) (4 + 8 * j + 8) W H (by omega) (by omega)
    have he : (2 * crow + 2) * (4 * W) + (4 + 8 * j + 8)
        = 4 * ((2 * crow + 2) * W + 1 + 2 * j) + 8 := by ring
    omega
  have hin : (write_seg a (4 * ((2 * crow + 1) * W + 1 + 2 * j)) (quad2 v)).length
      = a.length := write_seg_length _ _ _ (by rw [hq8, ha]; exact hs1)
  have hrw : (2 * crow + 2) * W = (2 * crow + 1) * W + W := by ring
  have hxW : x < W := by omega
  rw [main_bunch_eq v W H BW BH hBW hBH crow hcrow j hj a]
  rw [write_seg_getD _ _ _ i (by rw [hq8, hin, ha]; exact hs2)]
  rcases hy with hy | hy
  · subst hy
    rw [if_neg (by rw [hq8]; omega)]
    rw [write_seg_getD _ _ _ i (by rw [hq8, ha]; exact hs1)]
    rw [if_pos (by rw [hq8]; omega)]
    exact quad2_getD_pat (yuv_to_rgb v 128 128) ((2 * crow + 1) * W + 1 + 2 * j) i
      (by omega) (by omega)
  · subst hy
    rw [if_pos (by rw [hq8]; omega)]
    exact quad2_getD_pat (yuv_to_rgb v 128 128) ((2 * crow + 2) * W + 1 + 2 * j) i
      (by omega) (by omega)

/-- A uniform main-loop row preserves the RGBA buffer length. -/
theorem main_row_len (v W H BW BH : Nat)
    (hBW : W = 2 * BW ∨ W + 1 = 2 * BW) (hBH : H = 2 * BH ∨ H + 1 = 2 * BH)
    (crow : Nat) (hcrow : crow < BH - 1)
    (a : List Nat) (ha : a.length = 4 * (W * H)) :
    (main_row (List.replicate (W * H) v) (List.replicate (BW * BH) 128)
      (List.replicate (BW * BH) 128) W BW a crow).length = 4 * (W * H) := by
  unfold main_row
  exact foldl_write_len (List.range (BW - 1))
    (fun b j hj hb => main_bunch_len v W H BW BH hBW hBH crow hcrow j
      (List.mem_range.1 hj) b hb) a ha

/-- A uniform main-loop row either preserves a byte or writes the uniform
pattern byte. -/
theorem main_row_opt (v W H BW BH : Nat)
    (hBW : W = 2 * BW ∨ W + 1 = 2 * BW) (hBH : H = 2 * BH ∨ H + 1 = 2 * BH)
    (crow : Nat) (hcrow : crow < BH - 1)
    (a : List Nat) (ha : a.length = 4 * (W * H)) (i : Nat) :
    (main_row (List.replicate (W * H) v) (List.replicate (BW * BH) 128)
        (List.replicate (BW * BH) 128) W BW a crow).getD i 0 = a.getD i 0 ∨
      (main_row (List.replicate (W * H) v) (List.replicate (BW * BH) 128)
        (List.replicate (BW * BH) 128) W BW a crow).getD i 0
        = patW (yuv_to_rgb v 128 128) i := by
  unfold main_row
  exact foldl_write_preserve (List.range (BW - 1))
    (fun b j hj hb => main_bunch_len v W H BW BH hBW hBH crow hcrow j
      (List.mem_range.1 hj) b hb)
    (fun b j hj hb k => main_bunch_opt v W H BW BH hBW hBH crow hcrow j
      (List.mem_range.1 hj) b hb k)
    a ha i

/-- A uniform main-loop row writes the pattern bytes of every interior pixel
of its two luma rows. -/
theorem main_row_cover (v W H BW BH : Nat)
    (hBW : W = 2 * BW ∨ W + 1 = 2 * BW) (hBH : H = 2 * BH ∨ H + 1 = 2 * BH)
    (crow : Nat) (hcrow : crow < BH - 1)
    (x y i : Nat) (hx1 : 1 ≤ x) (hx2 : x ≤ 2 * BW - 2)
    (hy : y = 2 * crow + 1 ∨ y = 2 * crow + 2)
    (hi1 : 4 * (y * W + x) ≤ i) (hi2 : i < 4 * (y * W + x) + 4)
    (a : List Nat) (ha : a.length = 4 * (W * H)) :
    (main_row (List.replicate (W * H) v) (List.replicate (BW * BH) 128)
      (List.replicate (BW * BH) 128) W BW a crow).getD i 0
      = patW (yuv_to_rgb v 128 128) i := by
  have hjlt : (x - 1) / 2 < BW - 1 := by omega
  have hx' : x = 1 + 2 * ((x - 1) / 2) ∨ x = 2 + 2 * ((x - 1) / 2) := by omega
  unfold main_row
  exact foldl_write_cover (List.range (BW - 1))
    (fun b j hj hb => main_bunch_len v W H BW BH hBW hBH crow hcrow j
      (List.mem_range.1 hj) b hb)
    (fun b j hj hb k => main_bunch_opt v W H BW BH hBW hBH crow hcrow j
      (List.mem_range.1 hj) b hb k)
    ((x - 1) / 2) (List.mem_range.2 hjlt) i
    (fun b hb => main_bunch_cover v W H BW BH hBW hBH crow hcrow ((x - 1) / 2) hjlt
      x y i hx' hy hi1 hi2 b hb)
    a ha

/-- The uniform main pass preserves the RGBA buffer length. -/
theorem main_pass_len (v W H BW BH : Nat)
    (hBW : W = 2 * BW ∨ W + 1 = 2 * BW) (hBH : H = 2 * BH ∨ H + 1 = 2 * BH)
    (a : List Nat) (ha : a.length = 4 * (W * H)) :
    (main_pass (List.replicate (W * H) v) (List.replicate (BW * BH) 128)
      (List.replicate (BW * BH) 128) W BW BH a).length = 4 * (W * H) := by
  unfold main_pass
  exact foldl_write_len (List.range (BH - 1))
    (fun b c hc hb => main_row_len v W H BW BH hBW hBH c (List.mem_range.1 hc) b hb)
    a ha

/-- The uniform main pass writes the pattern bytes of every interior pixel. -/
theorem main_pass_cover (v W H BW BH : Nat)
    (hBW : W = 2 * BW ∨ W + 1 = 2 * BW) (hBH : H = 2 * BH ∨ H + 1 = 2 * BH)
    (x y i : Nat) (hx1 : 1 ≤ x) (hx2 : x ≤ 2 * BW - 2)
    (hy1 : 1 ≤ y) (hy2 : y ≤ 2 * BH - 2)
    (hi1 : 4 * (y * W + x) ≤ i) (hi2 : i < 4 * (y * W + x) + 4)
    (a : List Nat) (ha : a.length = 4 * (W * H)) :
    (main_pass (List.replicate (W * H) v) (List.replicate (BW * BH) 128)
      (List.replicate (BW * BH) 128) W BW BH a).getD i 0
      = patW (yuv_to_rgb v 128 128) i := by
  have hclt : (y - 1) / 2 < BH - 1 := by omega
  have hy' : y = 2 * ((y - 1) / 2) + 1 ∨ y = 2 * ((y - 1) / 2) + 2 := by omega
  unfold main_pass
  exact foldl_write_cover (List.range (BH - 1))
    (fun b c hc hb => main_row_len v W H BW BH hBW hBH c (List.mem_range.1 hc) b hb)
    (fun b c hc hb k => main_row_opt v W H BW BH hBW hBH c (List.mem_range.1 hc) b hb k)
    ((y - 1) / 2) (List.mem_range.2 hclt) i
    (fun b hb => main_row_cover v W H BW BH hBW hBH ((y - 1) / 2) hclt
      x y i hx1 hx2 hy' hi1 hi2 b hb)
    a ha

/-- On a uniform picture, one edge-row bunch is one aligned 8-byte pattern
write. -/
theorem edge_row_bunch_eq (v W H BW BH row : Nat)
    (hBW : W = 2 * BW ∨ W + 1 = 2 * BW) (hBH : H = 2 * BH ∨ H + 1 = 2 * BH)
    (hH1 : 1 ≤ H) (hrow : row = 0 ∨ (H % 2 = 0 ∧ row = H - 1))
    (j : Nat) (hj : j < BW - 1) (a : List Nat) :
    edge_row_bunch (List.replicate (W * H) v) (List.replicate (BW * BH) 128)
        (List.replicate (BW * BH) 128) W BW row a j =
      write_seg a (4 * (row * W + 1 + 2 * j)) (quad2 v) := by
  have hrlt : row < H := by omega
  have hblt : row / 2 < BH := by omega
  have hy1 : row * W + 1 + 2 * j < W * H := by
    have h := idx_lt row (1 + 2 * j) W H hrlt (by omega)
    omega
  have hy2 : row * W + 1 + 2 * j + 1 < W * H := by
    have h := idx_lt row (1 + 2 * j + 1) W H hrlt (by omega)
    omega
  have hb1 : row / 2 * BW + j < BW * BH := by
    have h := idx_lt (row / 2) j BW BH hblt (by omega)
    omega
  have hb2 : row / 2 * BW + j + 1 < BW * BH := by
    have h := idx_lt (row / 2) (j + 1) BW BH hblt (by omega)
    omega
  have ho : (row * W + 1) * 4 + 8 * j = 4 * (row * W + 1 + 2 * j) := by ring
  simp only [edge_row_bunch]
  rw [replicate_getD _ _ _ hy1, replicate_getD _ _ _ hy2, replicate_getD _ _ _ hb1,
    replicate_getD _ _ _ hb2, lerp_yuv_uniform, ho]
  rfl

/-- A uniform edge-row bunch preserves the RGBA buffer length. -/
theorem edge_row_bunch_len (v W H BW BH row : Nat)
    (hBW : W = 2 * BW ∨ W + 1 = 2 * BW) (hBH : H = 2 * BH ∨ H + 1 = 2 * BH)
    (hH1 : 1 ≤ H) (hrow : row = 0 ∨ (H % 2 = 0 ∧ row = H - 1))
    (j : Nat) (hj : j < BW - 1)
    (a : List Nat) (ha : a.length = 4 * (W * H)) :
    (edge_row_bunch (List.replicate (W * H) v) (List.replicate (BW * BH) 128)
      (List.replicate (BW * BH) 128) W BW row a j).length = 4 * (W * H) := by
  have hq8 : (quad2 v).length = 8 := rfl
  have hs : 4 * (row * W + 1 + 2 * j) + 8 ≤ 4 * (W * H) := by
    have h := seg_le row (4 + 8 * j + 8) W H (by omega) (by omega)
    have he : row * (4 * W) + (4 + 8 * j + 8) = 4 * (row * W + 1 + 2 * j) + 8 := by ring
    omega
  rw [edge_row_bunch_eq v W H BW BH row hBW hBH hH1 hrow j hj a]
  rw [write_seg_length _ _ _ (by rw [hq8, ha]; exact hs), ha]

/-- A uniform edge-row bunch either preserves a byte or writes the uniform
pattern byte. -/
theorem edge_row_bunch_opt (v W H BW BH row : Nat)
    (hBW : W = 2 * BW ∨ W + 1 = 2 * BW) (hBH : H = 2 * BH ∨ H + 1 = 2 * BH)
    (hH1 : 1 ≤ H) (hrow : row = 0 ∨ (H % 2 = 0 ∧ row = H - 1))
    (j : Nat) (hj : j < BW - 1)
    (a : List Nat) (ha : a.length = 4 * (W * H)) (i : Nat) :
    (edge_row_bunch (List.replicate (W * H) v) (List.replicate (BW * BH) 128)
        (List.replicate (BW * BH) 128) W BW row a j).getD i 0 = a.getD i 0 ∨
      (edge_row_bunch (List.replicate (W * H) v) (List.replicate (BW * BH) 128)
        (List.replicate (BW * BH) 128) W BW row a j).getD i 0
        = patW (yuv_to_rgb v 128 128) i := by
  have hq8 : (quad2 v).length = 8 := rfl
  have hs : 4 * (row * W + 1 + 2 * j) + 8 ≤ 4 * (W * H) := by
    have h := seg_le row (4 + 8 * j + 8) W H (by omega) (by omega)
    have he : row * (4 * W) + (4 + 8 * j + 8) = 4 * (row * W + 1 + 2 * j) + 8 := by ring
    omega
  rw [edge_row_bunch_eq v W H BW BH row hBW hBH hH1 hrow j hj a]
  rw [write_seg_getD _ _ _ i (by rw [hq8, ha]; exact hs)]
  by_cases h1 : 4 * (row * W + 1 + 2 * j) ≤ i ∧
      i < 4 * (row * W + 1 + 2 * j) + (quad2 v).length
  · rw [if_pos h1]
    right
    rw [hq8] at h1
    exact quad2_getD_pat (yuv_to_rgb v 128 128) (row * W + 1 + 2 * j) i h1.1 (by omega)
  · rw [if_neg h1]
    left
    rfl

/-- A uniform edge-row bunch writes the pattern bytes of its two pixels. -/
theorem edge_row_bunch_cover (v W H BW BH row : Nat)
    (hBW : W = 2 * BW ∨ W + 1 = 2 * BW) (hBH : H = 2 * BH ∨ H + 1 = 2 * BH)
    (hH1 : 1 ≤ H) (hrow : row = 0 ∨ (H % 2 = 0 ∧ row = H - 1))
    (j : Nat) (hj : j < BW - 1)
    (x i : Nat) (hx : x = 1 + 2 * j ∨ x = 2 + 2 * j)
    (hi1 : 4 * (row * W + x) ≤ i) (hi2 : i < 4 * (row * W + x) + 4)
    (a : List Nat) (ha : a.length = 4 * (W * H)) :
    (edge_row_bunch (List.replicate (W * H) v) (List.replicate (BW * BH) 128)
      (List.replicate (BW * BH) 128) W BW row a j).getD i 0
      = patW (yuv_to_rgb v 128 128) i := by
  have hq8 : (quad2 v).length = 8 := rfl
  have hs : 4 * (row * W + 1 + 2 * j) + 8 ≤ 4 * (W * H) := by
    have h := seg_le row (4 + 8 * j + 8) W H (by omega) (by omega)
    have he : row * (4 * W) + (4 + 8 * j + 8) = 4 * (row * W + 1 + 2 * j) + 8 := by ring
    omega
  rw [edge_row_bunch_eq v W H BW BH row hBW hBH hH1 hrow j hj a]
  rw [write_seg_getD _ _ _ i (by rw [hq8, ha]; exact hs)]
  rw [if_pos (by rw [hq8]; omega)]
  exact quad2_getD_pat (yuv_to_rgb v 128 128) (row * W + 1 + 2 * j) i (by omega) (by omega)

/-- A uniform edge-row pass preserves the RGBA buffer length. -/
theorem edge_row_len (v W H BW BH row : Nat)
    (hBW : W = 2 * BW ∨ W + 1 = 2 * BW) (hBH : H = 2 * BH ∨ H + 1 = 2 * BH)
    (hH1 : 1 ≤ H) (hrow : row = 0 ∨ (H % 2 = 0 ∧ row = H - 1))
    (a : List Nat) (ha : a.length = 4 * (W * H)) :
    (process_edge_row (List.replicate (W * H) v) (List.replicate (BW * BH) 128)
      (List.replicate (BW * BH) 128) W BW a row).length = 4 * (W * H) := by
  unfold process_edge_row
  exact foldl_write_len (List.range (BW - 1))
    (fun b j hj hb => edge_row_bunch_len v W H BW BH row hBW hBH hH1 hrow j
      (List.mem_range.1 hj) b hb) a ha

/-- A uniform edge-row pass either preserves a byte or writes the uniform
pattern byte. -/
theorem edge_row_opt (v W H BW BH row : Nat)
    (hBW : W = 2 * BW ∨ W + 1 = 2 * BW) (hBH : H = 2 * BH ∨ H + 1 = 2 * BH)
    (hH1 : 1 ≤ H) (hrow : row = 0 ∨ (H % 2 = 0 ∧ row = H - 1))
    (a : List Nat) (ha : a.length = 4 * (W * H)) (i : Nat) :
    (process_edge_row (List.replicate (W * H) v) (List.replicate (BW * BH) 128)
        (List.replicate (BW * BH) 128) W BW a row).getD i 0 = a.getD i 0 ∨
      (process_edge_row (List.replicate (W * H) v) (List.replicate (BW * BH) 128)
        (List.replicate (BW * BH) 128) W BW a row).getD i 0
        = patW (yuv_to_rgb v 128 128) i := by
  unfold process_edge_row
  exact foldl_write_preserve (List.range (BW - 1))
    (fun b j hj hb => edge_row_bunch_len v W H BW BH row hBW hBH hH1 hrow j
      (List.mem_range.1 hj) b hb)
    (fun b j hj hb k => edge_row_bunch_opt v W H BW BH row hBW hBH hH1 hrow j
      (List.mem_range.1 hj) b hb k)
    a ha i

/-- A uniform edge-row pass keeps pattern bytes established earlier. -/
theorem edge_row_keep (v W H BW BH row : Nat)
    (hBW : W = 2 * BW ∨ W + 1 = 2 * BW) (hBH : H = 2 * BH ∨ H + 1 = 2 * BH)
    (hH1 : 1 ≤ H) (hrow : row = 0 ∨ (H % 2 = 0 ∧ row = H - 1))
    (a : List Nat) (ha : a.length = 4 * (W * H)) (i : Nat)
    (hai : a.getD i 0 = patW (yuv_to_rgb v 128 128) i) :
    (process_edge_row (List.replicate (W * H) v) (List.replicate (BW * BH) 128)
      (List.replicate (BW * BH) 128) W BW a row).getD i 0
      = patW (yuv_to_rgb v 128 128) i := by
  rcases edge_row_opt v W H BW BH row hBW hBH hH1 hrow a ha i with h | h
  · rw [h]
    exact hai
  · exact h

/-- A uniform edge-row pass writes the pattern bytes of every interior pixel
of its row. -/
theorem edge_row_cover (v W H BW BH row : Nat)
    (hBW : W = 2 * BW ∨ W + 1 = 2 * BW) (hBH : H = 2 * BH ∨ H + 1 = 2 * BH)
    (hH1 : 1 ≤ H) (hrow : row = 0 ∨ (H % 2 = 0 ∧ row = H - 1))
    (x i : Nat) (hx1 : 1 ≤ x) (hx2 : x ≤ 2 * BW - 2)
    (hi1 : 4 * (row * W + x) ≤ i) (hi2 : i < 4 * (row * W + x) + 4)
    (a : List Nat) (ha : a.length = 4 * (W * H)) :
    (process_edge_row (List.replicate (W * H) v) (List.replicate (BW * BH) 128)
      (List.replicate (BW * BH) 128) W BW a row).getD i 0
      = patW (yuv_to_rgb v 128 128) i := by
  have hjlt : (x - 1) / 2 < BW - 1 := by omega
  have hx' : x = 1 + 2 * ((x - 1) / 2) ∨ x = 2 + 2 * ((x - 1) / 2) := by omega
  unfold process_edge_row
  exact foldl_write_cover (List.range (BW - 1))
    (fun b j hj hb => edge_row_bunch_len v W H BW BH row hBW hBH hH1 hrow j
      (List.mem_range.1 hj) b hb)
    (fun b j hj hb k => edge_row_bunch_opt v W H BW BH row hBW hBH hH1 hrow j
      (List.mem_range.1 hj) b hb k)
    ((x - 1) / 2) (List.mem_range.2 hjlt) i
    (fun b hb => edge_row_bunch_cover v W H BW BH row hBW hBH hH1 hrow ((x - 1) / 2) hjlt
      x i hx' hi1 hi2 b hb)
    a ha

/-- On a uniform picture, one edge-column bunch is two aligned 4-byte pattern
writes. -/
theorem edge_col_bunch_eq (v W H BW BH col : Nat) (hW1 : 1 ≤ W)
    (hBW : W = 2 * BW ∨ W + 1 = 2 * BW) (hBH : H = 2 * BH ∨ H + 1 = 2 * BH)
    (hcol : col = 0 ∨ (W % 2 = 0 ∧ col = W - 1))
    (br_y : Nat) (hbr : br_y < BH - 1) (a : List Nat) :
    edge_col_bunch (List.replicate (W * H) v) (List.replicate (BW * BH) 128)
        (List.replicate (BW * BH) 128) W BW col a br_y =
      write_seg (write_seg a (4 * ((2 * br_y + 1) * W + col))
          (rgbaQuad (yuv_to_rgb v 128 128)))
        (4 * ((2 * br_y + 2) * W + col)) (rgbaQuad (yuv_to_rgb v 128 128)) := by
  have hclt : col < W := by omega
  have hcblt : col / 2 < BW := by omega
  have hy1 : (2 * br_y + 1) * W + col < W * H := idx_lt (2 * br_y + 1) col W H (by omega) hclt
  have hy2 : (2 * br_y + 1 + 1) * W + col < W * H :=
    idx_lt (2 * br_y + 1 + 1) col W H (by omega) hclt
  have hb1 : br_y * BW + col / 2 < BW * BH := idx_lt br_y (col / 2) BW BH (by omega) hcblt
  have hb2 : (br_y + 1) * BW + col / 2 < BW * BH :=
    idx_lt (br_y + 1) (col / 2) BW BH (by omega) hcblt
  have ho1 : ((2 * br_y + 1) * W + col) * 4 = 4 * ((2 * br_y + 1) * W + col) := by ring
  have ho2 : ((2 * br_y + 1 + 1) * W + col) * 4 = 4 * ((2 * br_y + 2) * W + col) := by ring
  simp only [edge_col_bunch]
  rw [replicate_getD _ _ _ hy1, replicate_getD _ _ _ hy2, replicate_getD _ _ _ hb1,
    replicate_getD _ _ _ hb2, lerp_yuv_uniform, ho1, ho2]

/-- A uniform edge-column bunch preserves the RGBA buffer length. -/
theorem edge_col_bunch_len (v W H BW BH col : Nat) (hW1 : 1 ≤ W)
    (hBW : W = 2 * BW ∨ W + 1 = 2 * BW) (hBH : H = 2 * BH ∨ H + 1 = 2 * BH)
    (hcol : col = 0 ∨ (W % 2 = 0 ∧ col = W - 1))
    (br_y : Nat) (hbr : br_y < BH - 1)
    (a : List Nat) (ha : a.length = 4 * (W * H)) :
    (edge_col_bunch (List.replicate (W * H) v) (List.replicate (BW * BH) 128)
      (List.replicate (BW * BH) 128) W BW col a br_y).length = 4 * (W * H) := by
  have hq4 : (rgbaQuad (yuv_to_rgb v 128 128)).length = 4 := rfl
  have hclt : col < W := by omega
  have hs1 : 4 * ((2 * br_y + 1) * W + col) + 4 ≤ 4 * (W * H) := by
    have h := seg_le (2 * br_y + 1) (4 * col + 4) W H (by omega) (by omega)
    have he : (2 * br_y + 1) * (4 * W) + (4 * col + 4)
        = 4 * ((2 * br_y + 1) * W + col) + 4 := by ring
    omega
  have hs2 : 4 * ((2 * br_y + 2) * W + col) + 4 ≤ 4 * (W * H) := by
    have h := seg_le (2 * br_y + 2) (4 * col + 4) W H (by omega) (by omega)
    have he : (2 * br_y + 2) * (4 * W) + (4 * col + 4)
        = 4 * ((2 * br_y + 2) * W + col) + 4 := by ring
    omega
  rw [edge_col_bunch_eq v W H BW BH col hW1 hBW hBH hcol br_y hbr a]
  have hin : (write_seg a (4 * ((2 * br_y + 1) * W + col))
      (rgbaQuad (yuv_to_rgb v 128 128))).length = a.length :=
    write_seg_length _ _ _ (by rw [hq4, ha]; exact hs1)
  rw [write_seg_length _ _ _ (by rw [hq4, hin, ha]; exact hs2), hin, ha]

/-- A uniform edge-column bunch either preserves a byte or writes the uniform
pattern byte. -/
theorem edge_col_bunch_opt (v W H BW BH col : Nat) (hW1 : 1 ≤ W)
    (hBW : W = 2 * BW ∨ W + 1 = 2 * BW) (hBH : H = 2 * BH ∨ H + 1 = 2 * BH)
    (hcol : col = 0 ∨ (W % 2 = 0 ∧ col = W - 1))
    (br_y : Nat) (hbr : br_y < BH - 1)
    (a : List Nat) (ha : a.length = 4 * (W * H)) (i : Nat) :
    (edge_col_bunch (List.replicate (W * H) v) (List.replicate (BW * BH) 128)
        (List.replicate (BW * BH) 128) W BW col a br_y).getD i 0 = a.getD i 0 ∨
      (edge_col_bunch (List.replicate (W * H) v) (List.replicate (BW * BH) 128)
        (List.replicate (BW * BH) 128) W BW col a br_y).getD i 0
        = patW (yuv_to_rgb v 128 128) i := by
  have hq4 : (rgbaQuad (yuv_to_rgb v 128 128)).length = 4 := rfl
  have hclt : col < W := by omega
  have hs1 : 4 * ((2 * br_y + 1) * W + col) + 4 ≤ 4 * (W * H) := by
    have h := seg_le (2 * br_y + 1) (4 * col + 4) W H (by omega) (by omega)
    have he : (2 * br_y + 1) * (4 * W) + (4 * col + 4)
        = 4 * ((2 * br_y + 1) * W + col) + 4 := by ring
    omega
  have hs2 : 4 * ((2 * br_y + 2) * W + col) + 4 ≤ 4 * (W * H) := by
    have h := seg_le (2 * br_y + 2) (4 * col + 4) W H (by omega) (by omega)
    have he : (2 * br_y + 2) * (4 * W) + (4 * col + 4)
        = 4 * ((2 * br_y + 2) * W + col) + 4 := by ring
    omega
  have hin : (write_seg a (4 * ((2 * br_y + 1) * W + col))
      (rgbaQuad (yuv_to_rgb v 128 128))).length = a.length :=
    write_seg_length _ _ _ (by rw [hq4, ha]; exact hs1)
  rw [edge_col_bunch_eq v W H BW BH col hW1 hBW hBH hcol br_y hbr a]
  rw [write_seg_getD _ _ _ i (by rw [hq4, hin, ha]; exact hs2)]
  by_cases h2 : 4 * ((2 * br_y + 2) * W + col) ≤ i ∧
      i < 4 * ((2 * br_y + 2) * W + col) + (rgbaQuad (yuv_to_rgb v 128 128)).length
  · rw [if_pos h2]
    right
    rw [hq4] at h2
    exact quad_getD_pat (yuv_to_rgb v 128 128) ((2 * br_y + 2) * W + col) i h2.1 (by omega)
  · rw [if_neg h2]
    rw [write_seg_getD _ _ _ i (by rw [hq4, ha]; exact hs1)]
    by_cases h1 : 4 * ((2 * br_y + 1) * W + col) ≤ i ∧
        i < 4 * ((2 * br_y + 1) * W + col) + (rgbaQuad (yuv_to_rgb v 128 128)).length
    · rw [if_pos h1]
      right
      rw [hq4] at h1
      exact quad_getD_pat (yuv_to_rgb v 128 128) ((2 * br_y + 1) * W + col) i h1.1 (by omega)
    · rw [if_neg h1]
      left
      rfl

/-- A uniform edge-column bunch writes the pattern bytes of its two pixels. -/
theorem edge_col_bunch_cover (v W H BW BH col : Nat) (hW1 : 1 ≤ W)
    (hBW : W = 2 * BW ∨ W + 1 = 2 * BW) (hBH : H = 2 * BH ∨ H + 1 = 2 * BH)
    (hcol : col = 0 ∨ (W % 2 = 0 ∧ col = W - 1))
    (br_y : Nat) (hbr : br_y < BH - 1)
    (y i : Nat) (hy : y = 2 * br_y + 1 ∨ y = 2 * br_y + 2)
    (hi1 : 4 * (y * W + col) ≤ i) (hi2 : i < 4 * (y * W + col) + 4)
    (a : List Nat) (ha : a.length = 4 * (W * H)) :
    (edge_col_bunch (List.replicate (W * H) v) (List.replicate (BW * BH) 128)
      (List.replicate (BW * BH) 128) W BW col a br_y).getD i 0
      = patW (yuv_to_rgb v 128 128) i := by
  have hq4 : (rgbaQuad (yuv_to_rgb v 128 128)).length = 4 := rfl
  have hclt : col < W := by omega
  have hs1 : 4 * ((2 * br_y + 1) * W + col) + 4 ≤ 4 * (W * H) := by
    have h := seg_le (2 * br_y + 1) (4 * col + 4) W H (by omega) (by omega)
    have he : (2 * br_y + 1) * (4 * W) + (4 * col + 4)
        = 4 * ((2 * br_y + 1) * W + col) + 4 := by ring
    omega
  have hs2 : 4 * ((2 * br_y + 2) * W + col) + 4 ≤ 4 * (W * H) := by
    have h := seg_le (2 * br_y + 2) (4 * col + 4) W H (by omega) (by omega)
    have he : (2 * br_y + 2) * (4 * W) + (4 * col + 4)
        = 4 * ((2 * br_y + 2) * W + col) + 4 := by ring
    omega
  have hin : (write_seg a (4 * ((2 * br_y + 1) * W + col))
      (rgbaQuad (yuv_to_rgb v 128 128))).length = a.length :=
    write_seg_length _ _ _ (by rw [hq4, ha]; exact hs1)
  have hrw : (2 * br_y + 2) * W = (2 * br_y + 1) * W + W := by ring
  rw [edge_col_bunch_eq v W H BW BH col hW1 hBW hBH hcol br_y hbr a]
  rw [write_seg_getD _ _ _ i (by rw [hq4, hin, ha]; exact hs2)]
  rcases hy with hy | hy
  · subst hy
    rw [if_neg (by rw [hq4]; omega)]
    rw [write_seg_getD _ _ _ i (by rw [hq4, ha]; exact hs1)]
    rw [if_pos (by rw [hq4]; omega)]
    exact quad_getD_pat (yuv_to_rgb v 128 128) ((2 * br_y + 1) * W + col) i
      (by omega) (by omega)
  · subst hy
    rw [if_pos (by rw [hq4]; omega)]
    exact quad_getD_pat (yuv_to_rgb v 128 128) ((2 * br_y + 2) * W + col) i
      (by omega) (by omega)

/-- On a uniform picture, `process_edge_col` normalises to the top pixel
write, the bunch fold, and the optional bottom pixel write. -/
theorem process_edge_col_eq (v W H BW BH col : Nat)
    (hW1 : 1 ≤ W) (hH1 : 1 ≤ H)
    (hBW : W = 2 * BW ∨ W + 1 = 2 * BW) (hBH : H = 2 * BH ∨ H + 1 = 2 * BH)
    (hcol : col = 0 ∨ (W % 2 = 0 ∧ col = W - 1)) (a : List Nat) :
    process_edge_col (List.replicate (W * H) v) (List.replicate (BW * BH) 128)
        (List.replicate (BW * BH) 128) W BW a col =
      (if H % 2 = 0 then
        write_seg ((List.range (BH - 1)).foldl
            (edge_col_bunch (List.replicate (W * H) v) (List.replicate (BW * BH) 128)
              (List.replicate (BW * BH) 128) W BW col)
            (write_seg a (4 * col) (rgbaQuad (yuv_to_rgb v 128 128))))
          (4 * ((H - 1) * W + col)) (rgbaQuad (yuv_to_rgb v 128 128))
      else
        (List.range (BH - 1)).foldl
          (edge_col_bunch (List.replicate (W * H) v) (List.replicate (BW * BH) 128)
            (List.replicate (BW * BH) 128) W BW col)
          (write_seg a (4 * col) (rgbaQuad (yuv_to_rgb v 128 128)))) := by
  have hWd : W * H / W = H := Nat.mul_div_cancel_left H (by omega)
  have hBWd : BW * BH / BW = BH := Nat.mul_div_cancel_left BH (by omega)
  have hclt : col < W := by omega
  have hcblt : col / 2 < BW := by omega
  have hcol_lt : col < W * H := by
    have h := idx_lt 0 col W H (by omega) hclt
    omega
  have hcb : col / 2 < BW * BH := by
    have h := idx_lt 0 (col / 2) BW BH (by omega) hcblt
    omega
  have hyb : (H - 1) * W + col < W * H := idx_lt (H - 1) col W H (by omega) hclt
  have hbb : (BH - 1) * BW + col / 2 < BW * BH := idx_lt (BH - 1) (col / 2) BW BH (by omega) hcblt
  have ho1 : col * 4 = 4 * col := by ring
  have ho2 : ((H - 1) * W + col) * 4 = 4 * ((H - 1) * W + col) := by ring
  simp only [process_edge_col, List.length_replicate, hWd, hBWd]
  rw [replicate_getD _ _ _ hcol_lt, replicate_getD _ _ _ hcb,
    replicate_getD _ _ _ hyb, replicate_getD _ _ _ hbb, ho1, ho2]

/-- A uniform edge-column pass preserves the RGBA buffer length. -/
theorem edge_col_len (v W H BW BH col : Nat)
    (hW1 : 1 ≤ W) (hH1 : 1 ≤ H)
    (hBW : W = 2 * BW ∨ W + 1 = 2 * BW) (hBH : H = 2 * BH ∨ H + 1 = 2 * BH)
    (hcol : col = 0 ∨ (W % 2 = 0 ∧ col = W - 1))
    (a : List Nat) (ha : a.length = 4 * (W * H)) :
    (process_edge_col (List.replicate (W * H) v) (List.replicate (BW * BH) 128)
      (List.replicate (BW * BH) 128) W BW a col).length = 4 * (W * H) := by
  have hq4 : (rgbaQuad (yuv_to_rgb v 128 128)).length = 4 := rfl
  have hclt : col < W := by omega
  have hts : 4 * col + 4 ≤ 4 * (W * H) := by
    have h := idx_lt 0 col W H (by omega) hclt
    omega
  have h1len : (write_seg a (4 * col) (rgbaQuad (yuv_to_rgb v 128 128))).length
      = a.length := write_seg_length _ _ _ (by rw [hq4, ha]; exact hts)
  have h2len : ((List.range (BH - 1)).foldl
      (edge_col_bunch (List.replicate (W * H) v) (List.replicate (BW * BH) 128)
        (List.replicate (BW * BH) 128) W BW col)
      (write_seg a (4 * col) (rgbaQuad (yuv_to_rgb v 128 128)))).length = 4 * (W * H) :=
    foldl_write_len (List.range (BH - 1))
      (fun b j hj hb => edge_col_bunch_len v W H BW BH col hW1 hBW hBH hcol j
        (List.mem_range.1 hj) b hb)
      _ (by rw [h1len, ha])
  rw [process_edge_col_eq v W H BW BH col hW1 hH1 hBW hBH hcol a]
  by_cases hH2 : H % 2 = 0
  · rw [if_pos hH2]
    have hbs : 4 * ((H - 1) * W + col) + 4 ≤ 4 * (W * H) := by
      have h := idx_lt (H - 1) col W H (by omega) hclt
      omega
    rw [write_seg_length _ _ _ (by rw [hq4, h2len]; exact hbs), h2len]
  · rw [if_neg hH2]
    exact h2len

/-- A uniform edge-column pass either preserves a byte or writes the uniform
pattern byte. -/
theorem edge_col_opt (v W H BW BH col : Nat)
    (hW1 : 1 ≤ W) (hH1 : 1 ≤ H)
    (hBW : W = 2 * BW ∨ W + 1 = 2 * BW) (hBH : H = 2 * BH ∨ H + 1 = 2 * BH)
    (hcol : col = 0 ∨ (W % 2 = 0 ∧ col = W - 1))
    (a : List Nat) (ha : a.length = 4 * (W * H)) (i : Nat) :
    (process_edge_col (List.replicate (W * H) v) (List.replicate (BW * BH) 128)
        (List.replicate (BW * BH) 128) W BW a col).getD i 0 = a.getD i 0 ∨
      (process_edge_col (List.replicate (W * H) v) (List.replicate (BW * BH) 128)
        (List.replicate (BW * BH) 128) W BW a col).getD i 0
        = patW (yuv_to_rgb v 128 128) i := by
  have hq4 : (rgbaQuad (yuv_to_rgb v 128 128)).length = 4 := rfl
  have hclt : col < W := by omega
  have hts : 4 * col + 4 ≤ 4 * (W * H) := by
    have h := idx_lt 0 col W H (by omega) hclt
    omega
  have h1len : (write_seg a (4 * col) (rgbaQuad (yuv_to_rgb v 128 128))).length
      = a.length := write_seg_length _ _ _ (by rw [hq4, ha]; exact hts)
  have h1opt : (write_seg a (4 * col) (rgbaQuad (yuv_to_rgb v 128 128))).getD i 0
      = a.getD i 0 ∨
      (write_seg a (4 * col) (rgbaQuad (yuv_to_rgb v 128 128))).getD i 0
        = patW (yuv_to_rgb v 128 128) i := by
    rw [write_seg_getD _ _ _ i (by rw [hq4, ha]; exact hts)]
    by_cases hk : 4 * col ≤ i ∧ i < 4 * col + (rgbaQuad (yuv_to_rgb v 128 128)).length
    · rw [if_pos hk]
      right
      rw [hq4] at hk
      exact quad_getD_pat (yuv_to_rgb v 128 128) col i hk.1 (by omega)
    · rw [if_neg hk]
      left
      rfl
  have h2len : ((List.range (BH - 1)).foldl
      (edge_col_bunch (List.replicate (W * H) v) (List.replicate (BW * BH) 128)
        (List.replicate (BW * BH) 128) W BW col)
      (write_seg a (4 * col) (rgbaQuad (yuv_to_rgb v 128 128)))).length = 4 * (W * H) :=
    foldl_write_len (List.range (BH - 1))
      (fun b j hj hb => edge_col_bunch_len v W H BW BH col hW1 hBW hBH hcol j
        (List.mem_range.1 hj) b hb)
      _ (by rw [h1len, ha])
  have h2opt : ((List.range (BH - 1)).foldl
      (edge_col_bunch (List.replicate (W * H) v) (List.replicate (BW * BH) 128)
        (List.replicate (BW * BH) 128) W BW col)
      (write_seg a (4 * col) (rgbaQuad (yuv_to_rgb v 128 128)))).getD i 0
      = a.getD i 0 ∨
      ((List.range (BH - 1)).foldl
        (edge_col_bunch (List.replicate (W * H) v) (List.replicate (BW * BH) 128)
          (List.replicate (BW * BH) 128) W BW col)
        (write_seg a (4 * col) (rgbaQuad (yuv_to_rgb v 128 128)))).getD i 0
        = patW (yuv_to_rgb v 128 128) i := by
    rcases foldl_write_preserve (List.range (BH - 1))
        (fun b j hj hb => edge_col_bunch_len v W H BW BH col hW1 hBW hBH hcol j
          (List.mem_range.1 hj) b hb)
        (fun b j hj hb k => edge_col_bunch_opt v W H BW BH col hW1 hBW hBH hcol j
          (List.mem_range.1 hj) b hb k)
        _ (by rw [h1len, ha]) i with h | h
    · rcases h1opt with h' | h'
      · left
        rw [h, h']
      · right
        rw [h, h']
    · right
      exact h
  rw [process_edge_col_eq v W H BW BH col hW1 hH1 hBW hBH hcol a]
  by_cases hH2 : H % 2 = 0
  · rw [if_pos hH2]
    have hbs : 4 * ((H - 1) * W + col) + 4 ≤ 4 * (W * H) := by
      have h := idx_lt (H - 1) col W H (by omega) hclt
      omega
    rw [write_seg_getD _ _ _ i (by rw [hq4, h2len]; exact hbs)]
    by_cases hk : 4 * ((H - 1) * W + col) ≤ i ∧
        i < 4 * ((H - 1) * W + col) + (rgbaQuad (yuv_to_rgb v 128 128)).length
    · rw [if_pos hk]
      right
      rw [hq4] at hk
      exact quad_getD_pat (yuv_to_rgb v 128 128) ((H - 1) * W + col) i hk.1 (by omega)
    · rw [if_neg hk]
      exact h2opt
  · rw [if_neg hH2]
    exact h2opt

/-- A uniform edge-column pass keeps pattern bytes established earlier. -/
theorem edge_col_keep (v W H BW BH col : Nat)
    (hW1 : 1 ≤ W) (hH1 : 1 ≤ H)
    (hBW : W = 2 * BW ∨ W + 1 = 2 * BW) (hBH : H = 2 * BH ∨ H + 1 = 2 * BH)
    (hcol : col = 0 ∨ (W % 2 = 0 ∧ col = W - 1))
    (a : List Nat) (ha : a.length = 4 * (W * H)) (i : Nat)
    (hai : a.getD i 0 = patW (yuv_to_rgb v 128 128) i) :
    (process_edge_col (List.replicate (W * H) v) (List.replicate (BW * BH) 128)
      (List.replicate (BW * BH) 128) W BW a col).getD i 0
      = patW (yuv_to_rgb v 128 128) i := by
  rcases edge_col_opt v W H BW BH col hW1 hH1 hBW hBH hcol a ha i with h | h
  · rw [h]
    exact hai
  · exact h

/-- A uniform edge-column pass writes the pattern bytes of every pixel of its
column. -/
theorem edge_col_cover (v W H BW BH col : Nat)
    (hW1 : 1 ≤ W) (hH1 : 1 ≤ H)
    (hBW : W = 2 * BW ∨ W + 1 = 2 * BW) (hBH : H = 2 * BH ∨ H + 1 = 2 * BH)
    (hcol : col = 0 ∨ (W % 2 = 0 ∧ col = W - 1))
    (y i : Nat) (hy : y < H)
    (hi1 : 4 * (y * W + col) ≤ i) (hi2 : i < 4 * (y * W + col) + 4)
    (a : List Nat) (ha : a.length = 4 * (W * H)) :
    (process_edge_col (List.replicate (W * H) v) (List.replicate (BW * BH) 128)
      (List.replicate (BW * BH) 128) W BW a col).getD i 0
      = patW (yuv_to_rgb v 128 128) i := by
  have hq4 : (rgbaQuad (yuv_to_rgb v 128 128)).length = 4 := rfl
  have hclt : col < W := by omega
  have hts : 4 * col + 4 ≤ 4 * (W * H) := by
    have h := idx_lt 0 col W H (by omega) hclt
    omega
  have h1len : (write_seg a (4 * col) (rgbaQuad (yuv_to_rgb v 128 128))).length
      = a.length := write_seg_length _ _ _ (by rw [hq4, ha]; exact hts)
  have h2len : ((List.range (BH - 1)).foldl
      (edge_col_bunch (List.replicate (W * H) v) (List.replicate (BW * BH) 128)
        (List.replicate (BW * BH) 128) W BW col)
      (write_seg a (4 * col) (rgbaQuad (yuv_to_rgb v 128 128)))).length = 4 * (W * H) :=
    foldl_write_len (List.range (BH - 1))
      (fun b j hj hb => edge_col_bunch_len v W H BW BH col hW1 hBW hBH hcol j
        (List.mem_range.1 hj) b hb)
      _ (by rw [h1len, ha])
  have hfold : (y = 0 ∨ y ≤ 2 * BH - 2) → ((List.range (BH - 1)).foldl
      (edge_col_bunch (List.replicate (W * H) v) (List.replicate (BW * BH) 128)
        (List.replicate (BW * BH) 128) W BW col)
      (write_seg a (4 * col) (rgbaQuad (yuv_to_rgb v 128 128)))).getD i 0
      = patW (yuv_to_rgb v 128 128) i := by
    intro hycase
    by_cases hy0 : y = 0
    · subst hy0
      have h1 : (write_seg a (4 * col) (rgbaQuad (yuv_to_rgb v 128 128))).getD i 0
          = patW (yuv_to_rgb v 128 128) i := by
        rw [write_seg_getD _ _ _ i (by rw [hq4, ha]; exact hts)]
        rw [if_pos (by rw [hq4]; omega)]
        exact quad_getD_pat (yuv_to_rgb v 128 128) col i (by omega) (by omega)
      exact foldl_write_keep (List.range (BH - 1))
        (fun b j hj hb => edge_col_bunch_len v W H BW BH col hW1 hBW hBH hcol j
          (List.mem_range.1 hj) b hb)
        (fun b j hj hb k => edge_col_bunch_opt v W H BW BH col hW1 hBW hBH hcol j
          (List.mem_range.1 hj) b hb k)
        _ (by rw [h1len, ha]) i h1
    · have hblt : (y - 1) / 2 < BH - 1 := by omega
      have hy' : y = 2 * ((y - 1) / 2) + 1 ∨ y = 2 * ((y - 1) / 2) + 2 := by omega
      exact foldl_write_cover (List.range (BH - 1))
        (fun b j hj hb => edge_col_bunch_len v W H BW BH col hW1 hBW hBH hcol j
          (List.mem_range.1 hj) b hb)
        (fun b j hj hb k => edge_col_bunch_opt v W H BW BH col hW1 hBW hBH hcol j
          (List.mem_range.1 hj) b hb k)
        ((y - 1) / 2) (List.mem_range.2 hblt) i
        (fun b hb => edge_col_bunch_cover v W H BW BH col hW1 hBW hBH hcol
          ((y - 1) / 2) hblt y i hy' hi1 hi2 b hb)
        _ (by rw [h1len, ha])
  rw [process_edge_col_eq v W H BW BH col hW1 hH1 hBW hBH hcol a]
  by_cases hH2 : H % 2 = 0
  · rw [if_pos hH2]
    have hbs : 4 * ((H - 1) * W + col) + 4 ≤ 4 * (W * H) := by
      have h := idx_lt (H - 1) col W H (by omega) hclt
      omega
    rw [write_seg_getD _ _ _ i (by rw [hq4, h2len]; exact hbs)]
    by_cases hk : 4 * ((H - 1) * W + col) ≤ i ∧
        i < 4 * ((H - 1) * W + col) + (rgbaQuad (yuv_to_rgb v 128 128)).length
    · rw [if_pos hk]
      rw [hq4] at hk
      exact quad_getD_pat (yuv_to_rgb v 128 128) ((H - 1) * W + col) i hk.1 (by omega)
    · rw [if_neg hk]
      have hyne : ¬ y = H - 1 := by
        intro he
        subst he
        rw [hq4] at hk
        exact hk ⟨by omega, by omega⟩
      exact hfold (by omega)
  · rw [if_neg hH2]
    exact hfold (by omega)

/-- On a uniform picture (luma v, both chroma planes 128), every byte of the
converted RGBA buffer inside a pixel's quad is the corresponding byte of the
uniform colour's quad. -/
theorem yuv420_uniform_getD (v W H BW BH : Nat)
    (hW1 : 1 ≤ W) (hH1 : 1 ≤ H)
    (hBW : W = 2 * BW ∨ W + 1 = 2 * BW) (hBH : H = 2 * BH ∨ H + 1 = 2 * BH)
    (x y i : Nat) (hx : x < W) (hy : y < H)
    (hi1 : 4 * (y * W + x) ≤ i) (hi2 : i < 4 * (y * W + x) + 4) :
    (yuv420_to_rgba (List.replicate (W * H) v) (List.replicate (BW * BH) 128)
      (List.replicate (BW * BH) 128) W BW).getD i 0
      = patW (yuv_to_rgb v 128 128) i := by
  have hWH1 : 1 ≤ W * H := by
    have h := idx_lt 0 0 W H (by omega) (by omega)
    omega
  have hnil : (List.replicate (W * H) v).isEmpty = false := by
    obtain ⟨n, hn⟩ : ∃ n, W * H = n + 1 := ⟨W * H - 1, by omega⟩
    rw [hn, List.replicate_succ]
    rfl
  have hWd : W * H / W = H := Nat.mul_div_cancel_left H (by omega)
  have hBWd : BW * BH / BW = BH := Nat.mul_div_cancel_left BH (by omega)
  simp only [yuv420_to_rgba, hnil, Bool.false_eq_true, if_false,
    List.length_replicate, hWd, hBWd]
  set a1 := main_pass (List.replicate (W * H) v) (List.replicate (BW * BH) 128)
    (List.replicate (BW * BH) 128) W BW BH (List.replicate (W * H * 4) 0) with ha1def
  set a2 := process_edge_row (List.replicate (W * H) v) (List.replicate (BW * BH) 128)
    (List.replicate (BW * BH) 128) W BW a1 0 with ha2def
  set a3 := (if H % 2 = 0 then
    process_edge_row (List.replicate (W * H) v) (List.replicate (BW * BH) 128)
      (List.replicate (BW * BH) 128) W BW a2 (H - 1)
    else a2) with ha3def
  set a4 := process_edge_col (List.replicate (W * H) v) (List.replicate (BW * BH) 128)
    (List.replicate (BW * BH) 128) W BW a3 0 with ha4def
  have hl0 : (List.replicate (W * H * 4) 0).length = 4 * (W * H) := by
    rw [List.length_replicate]
    ring
  have hl1 : a1.length = 4 * (W * H) := main_pass_len v W H BW BH hBW hBH _ hl0
  have hl2 : a2.length = 4 * (W * H) :=
    edge_row_len v W H BW BH 0 hBW hBH hH1 (Or.inl rfl) a1 hl1
  have hl3 : a3.length = 4 * (W * H) := by
    rw [ha3def]
    by_cases hH2 : H % 2 = 0
    · rw [if_pos hH2]
      exact edge_row_len v W H BW BH (H - 1) hBW hBH hH1 (Or.inr ⟨hH2, rfl⟩) a2 hl2
    · rw [if_neg hH2]
      exact hl2
  have hl4 : a4.length = 4 * (W * H) :=
    edge_col_len v W H BW BH 0 hW1 hH1 hBW hBH (Or.inl rfl) a3 hl3
  have hfin : a4.getD i 0 = patW (yuv_to_rgb v 128 128) i →
      (if W % 2 = 0 then
        process_edge_col (List.replicate (W * H) v) (List.replicate (BW * BH) 128)
          (List.replicate (BW * BH) 128) W BW a4 (W - 1)
        else a4).getD i 0 = patW (yuv_to_rgb v 128 128) i := by
    intro h4
    by_cases hW2 : W % 2 = 0
    · rw [if_pos hW2]
      exact edge_col_keep v W H BW BH (W - 1) hW1 hH1 hBW hBH (Or.inr ⟨hW2, rfl⟩) a4 hl4 i h4
    · rw [if_neg hW2]
      exact h4
  have hk3 : a2.getD i 0 = patW (yuv_to_rgb v 128 128) i →
      a3.getD i 0 = patW (yuv_to_rgb v 128 128) i := by
    intro h2
    rw [ha3def]
    by_cases hH2 : H % 2 = 0
    · rw [if_pos hH2]
      exact edge_row_keep v W H BW BH (H - 1) hBW hBH hH1 (Or.inr ⟨hH2, rfl⟩) a2 hl2 i h2
    · rw [if_neg hH2]
      exact h2
  have hk4 : a3.getD i 0 = patW (yuv_to_rgb v 128 128) i →
      a4.getD i 0 = patW (yuv_to_rgb v 128 128) i := by
    intro h3
    rw [ha4def]
    exact edge_col_keep v W H BW BH 0 hW1 hH1 hBW hBH (Or.inl rfl) a3 hl3 i h3
  by_cases hx0 : x = 0
  · subst hx0
    apply hfin
    rw [ha4def]
    exact edge_col_cover v W H BW BH 0 hW1 hH1 hBW hBH (Or.inl rfl) y i hy hi1 hi2 a3 hl3
  · by_cases hxr : W % 2 = 0 ∧ x = W - 1
    · obtain ⟨hW2, hxeq⟩ := hxr
      subst hxeq
      rw [if_pos hW2]
      exact edge_col_cover v W H BW BH (W - 1) hW1 hH1 hBW hBH (Or.inr ⟨hW2, rfl⟩)
        y i hy hi1 hi2 a4 hl4
    · have hx1 : 1 ≤ x := by omega
      have hx2 : x ≤ 2 * BW - 2 := by omega
      apply hfin
      apply hk4
      by_cases hy0 : y = 0
      · subst hy0
        apply hk3
        rw [ha2def]
        exact edge_row_cover v W H BW BH 0 hBW hBH hH1 (Or.inl rfl) x i hx1 hx2 hi1 hi2 a1 hl1
      · by_cases hyb : y ≤ 2 * BH - 2
        · apply hk3
          rw [ha2def]
          apply edge_row_keep v W H BW BH 0 hBW hBH hH1 (Or.inl rfl) a1 hl1 i
          rw [ha1def]
          exact main_pass_cover v W H BW BH hBW hBH x y i hx1 hx2 (by omega) hyb
            hi1 hi2 _ hl0
        · have hH2 : H % 2 = 0 := by omega
          have hyeq : y = H - 1 := by omega
          subst hyeq
          rw [ha3def, if_pos hH2]
          exact edge_row_cover v W H BW BH (H - 1) hBW hBH hH1 (Or.inr ⟨hH2, rfl⟩)
            x i hx1 hx2 hi1 hi2 a2 hl2

/-- On a nonempty uniform picture the converter's output has 4 bytes per
luma sample. -/
theorem yuv420_uniform_length (v W H BW BH : Nat)
    (hW1 : 1 ≤ W) (hH1 : 1 ≤ H)
    (hBW : W = 2 * BW ∨ W + 1 = 2 * BW) (hBH : H = 2 * BH ∨ H + 1 = 2 * BH) :
    (yuv420_to_rgba (List.replicate (W * H) v) (List.replicate (BW * BH) 128)
      (List.replicate (BW * BH) 128) W BW).length = 4 * (W * H) := by
  have hWH1 : 1 ≤ W * H := by
    have h := idx_lt 0 0 W H (by omega) (by omega)
    omega
  have hnil : (List.replicate (W * H) v).isEmpty = false := by
    obtain ⟨n, hn⟩ : ∃ n, W * H = n + 1 := ⟨W * H - 1, by omega⟩
    rw [hn, List.replicate_succ]
    rfl
  have hWd : W * H / W = H := Nat.mul_div_cancel_left H (by omega)
  have hBWd : BW * BH / BW = BH := Nat.mul_div_cancel_left BH (by omega)
  simp only [yuv420_to_rgba, hnil, Bool.false_eq_true, if_false,
    List.length_replicate, hWd, hBWd]
  have hl0 : (List.replicate (W * H * 4) 0).length = 4 * (W * H) := by
    rw [List.length_replicate]
    ring
  have hl1 := main_pass_len v W H BW BH hBW hBH _ hl0
  have hl2 := edge_row_len v W H BW BH 0 hBW hBH hH1 (Or.inl rfl) _ hl1
  have hl3 : (if H % 2 = 0 then
      process_edge_row (List.replicate (W * H) v) (List.replicate (BW * BH) 128)
        (List.replicate (BW * BH) 128) W BW
        (process_edge_row (List.replicate (W * H) v) (List.replicate (BW * BH) 128)
          (List.replicate (BW * BH) 128) W BW
          (main_pass (List.replicate (W * H) v) (List.replicate (BW * BH) 128)
            (List.replicate (BW * BH) 128) W BW BH (List.replicate (W * H * 4) 0)) 0)
        (H - 1)
      else
      process_edge_row (List.replicate (W * H) v) (List.replicate (BW * BH) 128)
        (List.replicate (BW * BH) 128) W BW
        (main_pass (List.replicate (W * H) v) (List.replicate (BW * BH) 128)
          (List.replicate (BW * BH) 128) W BW BH (List.replicate (W * H * 4) 0)) 0).length
      = 4 * (W * H) := by
    by_cases hH2 : H % 2 = 0
    · rw [if_pos hH2]
      exact edge_row_len v W H BW BH (H - 1) hBW hBH hH1 (Or.inr ⟨hH2, rfl⟩) _ hl2
    · rw [if_neg hH2]
      exact hl2
  have hl4 := edge_col_len v W H BW BH 0 hW1 hH1 hBW hBH (Or.inl rfl) _ hl3
  by_cases hW2 : W % 2 = 0
  · rw [if_pos hW2]
    exact edge_col_len v W H BW BH (W - 1) hW1 hH1 hBW hBH (Or.inr ⟨hW2, rfl⟩) _ hl4
  · rw [if_neg hW2]
    exact hl4

/-- C6 counterexample: on a 1-by-1 picture the converter maps the
nominal-black input (luma 16, chroma 128) to (0, 1, 0, 255), not
(0, 0, 0, 255), and the nominal-white input (luma 235, chroma 128) to
(254, 255, 254, 255), not (255, 255, 255, 255). -/
theorem c6_endpoint_counterexample :
    yuv420_to_rgba [16] [128] [128] 1 1 = [0, 1, 0, 255]
    ∧ yuv420_to_rgba [16] [128] [128] 1 1 ≠ [0, 0, 0, 255]
    ∧ yuv420_to_rgba [235] [128] [128] 1 1 = [254, 255, 254, 255]
    ∧ yuv420_to_rgba [235] [128] [128] 1 1 ≠ [255, 255, 255, 255] := by
  decide

/-- C6 (corrected): YUV to RGBA endpoint colours.  For every picture whose
luma plane is W-by-H and whose chroma planes are BW-by-BH in the 4:2:0
halving relation, and for every pixel (x, y), the converter maps the
uniformly nominal-black input (luma 16, both chroma planes 128) to the RGBA
tuple (0, 1, 0, 255) -- not (0, 0, 0, 255) as claimed -- and the uniformly
nominal-white input (luma 235, both chroma planes 128) to
(254, 255, 254, 255) -- not (255, 255, 255, 255) as claimed; in both cases
the output buffer holds exactly 4 bytes per luma sample. -/
theorem c6_uniform_endpoint_colours (W H BW BH x y : Nat)
    (hW1 : 1 ≤ W) (hH1 : 1 ≤ H)
    (hBW : W = 2 * BW ∨ W + 1 = 2 * BW) (hBH : H = 2 * BH ∨ H + 1 = 2 * BH)
    (hx : x < W) (hy : y < H) :
    ((yuv420_to_rgba (List.replicate (W * H) 16) (List.replicate (BW * BH) 128)
        (List.replicate (BW * BH) 128) W BW).getD (4 * (y * W + x)) 0,
      (yuv420_to_rgba (List.replicate (W * H) 16) (List.replicate (BW * BH) 128)
        (List.replicate (BW * BH) 128) W BW).getD (4 * (y * W + x) + 1) 0,
      (yuv420_to_rgba (List.replicate (W * H) 16) (List.replicate (BW * BH) 128)
        (List.replicate (BW * BH) 128) W BW).getD (4 * (y * W + x) + 2) 0,
      (yuv420_to_rgba (List.replicate (W * H) 16) (List.replicate (BW * BH) 128)
        (List.replicate (BW * BH) 128) W BW).getD (4 * (y * W + x) + 3) 0)
      = (0, 1, 0, 255)
    ∧ ((yuv420_to_rgba (List.replicate (W * H) 235) (List.replicate (BW * BH) 128)
        (List.replicate (BW * BH) 128) W BW).getD (4 * (y * W + x)) 0,
      (yuv420_to_rgba (List.replicate (W * H) 235) (List.replicate (BW * BH) 128)
        (List.replicate (BW * BH) 128) W BW).getD (4 * (y * W + x) + 1) 0,
      (yuv420_to_rgba (List.replicate (W * H) 235) (List.replicate (BW * BH) 128)
        (List.replicate (BW * BH) 128) W BW).getD (4 * (y * W + x) + 2) 0,
      (yuv420_to_rgba (List.replicate (W * H) 235) (List.replicate (BW * BH) 128)
        (List.replicate (BW * BH) 128) W BW).getD (4 * (y * W + x) + 3) 0)
      = (254, 255, 254, 255)
    ∧ (yuv420_to_rgba (List.replicate (W * H) 16) (List.replicate (BW * BH) 128)
        (List.replicate (BW * BH) 128) W BW).length = 4 * (W * H)
    ∧ (yuv420_to_rgba (List.replicate (W * H) 235) (List.replicate (BW * BH) 128)
        (List.replicate (BW * BH) 128) W BW).length = 4 * (W * H) := by
  have m0 : 4 * (y * W + x) % 4 = 0 := by omega
  have m1 : (4 * (y * W + x) + 1) % 4 = 1 := by omega
  have m2 : (4 * (y * W + x) + 2) % 4 = 2 := by omega
  have m3 : (4 * (y * W + x) + 3) % 4 = 3 := by omega
  refine ⟨?_, ?_, yuv420_uniform_length 16 W H BW BH hW1 hH1 hBW hBH,
    yuv420_uniform_length 235 W H BW BH hW1 hH1 hBW hBH⟩
  · have h0 := yuv420_uniform_getD 16 W H BW BH hW1 hH1 hBW hBH x y
      (4 * (y * W + x)) hx hy (by omega) (by omega)
    have h1 := yuv420_uniform_getD 16 W H BW BH hW1 hH1 hBW hBH x y
      (4 * (y * W + x) + 1) hx hy (by omega) (by omega)
    have h2 := yuv420_uniform_getD 16 W H BW BH hW1 hH1 hBW hBH x y
      (4 * (y * W + x) + 2) hx hy (by omega) (by omega)
    have h3 := yuv420_uniform_getD 16 W H BW BH hW1 hH1 hBW hBH x y
      (4 * (y * W + x) + 3) hx hy (by omega) (by omega)
    rw [h0, h1, h2, h3]
    simp only [patW, m0, m1, m2, m3]
    decide
  · have h0 := yuv420_uniform_getD 235 W H BW BH hW1 hH1 hBW hBH x y
      (4 * (y * W + x)) hx hy (by omega) (by omega)
    have h1 := yuv420_uniform_getD 235 W H BW BH hW1 hH1 hBW hBH x y
      (4 * (y * W + x) + 1) hx hy (by omega) (by omega)
    have h2 := yuv420_uniform_getD 235 W H BW BH hW1 hH1 hBW hBH x y
      (4 * (y * W + x) + 2) hx hy (by omega) (by omega)
    have h3 := yuv420_uniform_getD 235 W H BW BH hW1 hH1 hBW hBH x y
      (4 * (y * W + x) + 3) hx hy (by omega) (by omega)
    rw [h0, h1, h2, h3]
    simp only [patW, m0, m1, m2, m3]
    decide

/-- Witness for C6: the corrected endpoint colours at the single pixel of a
1-by-1 picture. -/
theorem c6_uniform_endpoint_colours_witness :
    ((yuv420_to_rgba (List.replicate (1 * 1) 16) (List.replicate (1 * 1) 128)
        (List.replicate (1 * 1) 128) 1 1).getD (4 * (0 * 1 + 0)) 0,
      (yuv420_to_rgba (List.replicate (1 * 1) 16) (List.replicate (1 * 1) 128)
        (List.replicate (1 * 1) 128) 1 1).getD (4 * (0 * 1 + 0) + 1) 0,
      (yuv420_to_rgba (List.replicate (1 * 1) 16) (List.replicate (1 * 1) 128)
        (List.replicate (1 * 1) 128) 1 1).getD (4 * (0 * 1 + 0) + 2) 0,
      (yuv420_to_rgba (List.replicate (1 * 1) 16) (List.replicate (1 * 1) 128)
        (List.replicate (1 * 1) 128) 1 1).getD (4 * (0 * 1 + 0) + 3) 0)
      = (0, 1, 0, 255)
    ∧ ((yuv420_to_rgba (List.replicate (1 * 1) 235) (List.replicate (1 * 1) 128)
        (List.replicate (1 * 1) 128) 1 1).getD (4 * (0 * 1 + 0)) 0,
      (yuv420_to_rgba (List.replicate (1 * 1) 235) (List.replicate (1 * 1) 128)
        (List.replicate (1 * 1) 128) 1 1).getD (4 * (0 * 1 + 0) + 1) 0,
      (yuv420_to_rgba (List.replicate (1 * 1) 235) (List.replicate (1 * 1) 128)
        (List.replicate (1 * 1) 128) 1 1).getD (4 * (0 * 1 + 0) + 2) 0,
      (yuv420_to_rgba (List.replicate (1 * 1) 235) (List.replicate (1 * 1) 128)
        (List.replicate (1 * 1) 128) 1 1).getD (4 * (0 * 1 + 0) + 3) 0)
      = (254, 255, 254, 255)
    ∧ (yuv420_to_rgba (List.replicate (1 * 1) 16) (List.replicate (1 * 1) 128)
        (List.replicate (1 * 1) 128) 1 1).length = 4 * (1 * 1)
    ∧ (yuv420_to_rgba (List.replicate (1 * 1) 235) (List.replicate (1 * 1) 128)
        (List.replicate (1 * 1) 128) 1 1).length = 4 * (1 * 1) :=
  c6_uniform_endpoint_colours 1 1 1 1 0 0 (by decide) (by decide)
    (Or.inr rfl) (Or.inr rfl) (by decide) (by decide)
